import Mathlib

/-!
# Verification of the vikochatbot document pipeline

A shallow embedding of the pure, string-level core of the repository:

* `src/src/embedding/chunker.py`   — `TextChunker.chunk_text`, `_clean_text`,
  `_find_sentence_boundary`, `_find_word_boundary`, `chunk_by_paragraphs`;
* `src/src/embedding/embedder.py`  — `OpenAIEmbedder.embed_batch`, `embed_chunks`;
* `src/src/retrieval/retriever.py` — `DocumentRetriever.format_context`,
  `get_relevant_sources`;
* `src/app.py`                     — the answer post-processing of
  `ChatbotEngine.get_answer`.

Python strings are embedded as `List Char` (`PyStr`); Python `dict` records
are embedded as finite-support maps `String → Option Val`; Python `int` is
`ℤ`, `float` is modelled as `ℚ`.  Loops whose termination is in question are
given an explicit fuel parameter and return `Option`/`Except` values; a result
of `Option.none` for every fuel witnesses non-termination of the source loop.
The embedding network call of the embedder is abstracted as a total function
argument (the claims under study assume every upstream embedding call
succeeds).
-/

/-- Python strings, embedded character by character. -/
abbrev PyStr := List Char

/-- Shorthand turning a Lean string literal into the embedded form. -/
def S (s : String) : PyStr := s.data

/-- The apostrophe character (U+0027), built numerically. -/
def apos : Char := Char.ofNat 39

/-- `str.isspace()` on a single character, for the ASCII whitespace that the
analysed strings contain ( space, tab, newline, carriage return, vertical tab,
form feed ). -/
def pyIsSpace (c : Char) : Bool :=
  c = ' ' || c = '\t' || c = '\n' || c = '\r' || c = Char.ofNat 11 || c = Char.ofNat 12

/-- `str.strip()`: remove leading and trailing whitespace. -/
def pyStrip (l : PyStr) : PyStr :=
  ((l.dropWhile pyIsSpace).reverse.dropWhile pyIsSpace).reverse

/-- `str.lower()` (the analysed strings are ASCII). -/
def pyLower (l : PyStr) : PyStr := l.map Char.toLower

/-- Python substring test `needle in hay`. -/
def listContains (hay needle : PyStr) : Bool :=
  hay.tails.any (fun t => needle.isPrefixOf t)

/-- Python `sep.join(parts)` for list-of-characters strings. -/
def pyJoin (sep : PyStr) : List PyStr → PyStr
  | [] => []
  | [p] => p
  | p :: q :: ps => p ++ sep ++ pyJoin sep (q :: ps)

/-! ## Python values and dictionaries -/

/-- The values stored in the pipeline's record dictionaries. -/
inductive Val where
  | str : PyStr → Val
  | int : ℤ → Val
  | rat : ℚ → Val
  | vec : List ℚ → Val
deriving DecidableEq

/-- A Python `dict` with string keys, embedded as its lookup function. -/
abbrev Dict := String → Option Val

/-- The empty dictionary (also stands for `metadata=None`: updating with it is
a no-op, exactly like Python's `if metadata:` guard skipping the update). -/
def emptyDict : Dict := fun _ => Option.none

/-- `d.update(m)`: keys of `m` take precedence. -/
def dictUpdate (d m : Dict) : Dict := fun k =>
  match m k with
  | some v => some v
  | Option.none => d k

/-- `d[k] = v`. -/
def dictSet (d : Dict) (k : String) (v : Val) : Dict := fun q =>
  if q = k then some v else d q

/-- `d.get(k, default)`. -/
def pyGetD (d : Dict) (k : String) (v0 : Val) : Val :=
  match d k with
  | some v => v
  | Option.none => v0

/-- Read an integer field (the analysed records hold `Val.int` there). -/
def pyGetInt (d : Dict) (k : String) : ℤ :=
  match d k with
  | some (Val.int n) => n
  | _ => 0

/-- Read a string field with a default. -/
def pyGetStrD (d : Dict) (k : String) (v0 : PyStr) : PyStr :=
  match d k with
  | some (Val.str s) => s
  | _ => v0

/-! ## Float formatting

Python floats are embedded as rationals; `f"{x:.2f}"` is modelled as rounding
the exact value half-to-even to two decimals.  No claim depends on the digits
this produces, only on the fact that it is some fixed string per score. -/

/-- Round to the nearest integer, ties to even. -/
def roundHalfEven (x : ℚ) : ℤ :=
  let f := ⌊x⌋
  let r := x - f
  if r < 1/2 then f
  else if 1/2 < r then f + 1
  else if f % 2 = 0 then f else f + 1

/-- `f"{q:.2f}"` for a rational score. -/
def fmt2Rat (q : ℚ) : PyStr :=
  let n := roundHalfEven (q * 100)
  let a := n.natAbs
  (if n < 0 then ['-'] else []) ++ (toString (a / 100)).data ++ ['.']
    ++ (if a % 100 < 10 then ['0'] else []) ++ (toString (a % 100)).data

/-- `f"{v:.2f}"` on a score value; `result.get('score', 0)` defaults to the
int `0`.  A non-numeric score would raise `TypeError` in Python and is mapped
to the empty rendering here (never reached by the claims). -/
def fmt2 : Val → PyStr
  | Val.int n => (toString n).data ++ S ".00"
  | Val.rat q => fmt2Rat q
  | _ => []

/-- Python `str(v)` as used inside the f-string of `format_context`.  The
renderings of `rat`/`vec` values are placeholders never examined by a claim
(the pipeline stores strings in the interpolated fields). -/
def strOfVal : Val → PyStr
  | Val.str s => s
  | Val.int n => (toString n).data
  | Val.rat q => fmt2Rat q
  | Val.vec _ => []

/-! ## `DocumentRetriever.format_context` (src/src/retrieval/retriever.py 70–107) -/

/-- One formatted chunk (line 93):
`f"[Source {i}: {filename} (relevance: {score:.2f})]\n{text}\n"` with
`text = result.get('text', '')`, `filename = result.get('filename', 'Unknown')`
and `score = result.get('score', 0)`. -/
def mkChunk (i : ℕ) (r : Dict) : PyStr :=
  S "[Source " ++ (toString i).data ++ S ": "
    ++ strOfVal (pyGetD r "filename" (Val.str (S "Unknown")))
    ++ S " (relevance: " ++ fmt2 (pyGetD r "score" (Val.int 0)) ++ S ")]"
    ++ ['\n'] ++ strOfVal (pyGetD r "text" (Val.str [])) ++ ['\n']

/-- The packing loop of `format_context` (lines 87–105); `i` is the 1-based
`enumerate` counter and `cur` the running `current_length`.  On overflow the
chunk is truncated to the remaining budget and suffixed with `"...\n"` when
more than 100 characters remain, and the loop breaks either way.  (`cur` never
exceeds `maxLen` on reachable states, so the truncated natural subtraction
agrees with Python's integer subtraction; for `cur > maxLen` both sides take
the bare `break`.) -/
def formatLoop (maxLen : ℕ) : List Dict → ℕ → ℕ → List PyStr
  | [], _, _ => []
  | r :: rs, i, cur =>
    let ch := mkChunk i r
    if maxLen < cur + ch.length then
      if 100 < maxLen - cur then [ch.take (maxLen - cur) ++ S "...\n"] else []
    else ch :: formatLoop maxLen rs (i + 1) (cur + ch.length)

/-- `DocumentRetriever.format_context(results, max_length)`: empty string for
no results, otherwise the packed chunks joined with `"\n"`. -/
def format_context (results : List Dict) (maxLen : ℕ) : PyStr :=
  match results with
  | [] => []
  | r :: rs => pyJoin ['\n'] (formatLoop maxLen (r :: rs) 1 0)

/-! ## `DocumentRetriever.get_relevant_sources` (retriever.py 109–125) -/

/-- The filename collected from one result: present and truthy (non-empty).
Filenames are modelled as the string values the pipeline stores there; a
truthy non-string value would make Python's final `sorted` raise `TypeError`
on the mixed set, so only string values are collected. -/
def extractFilename (r : Dict) : Option String :=
  match r "filename" with
  | some (Val.str s) => if s = [] then Option.none else some (String.mk s)
  | _ => Option.none

/-- The `sources` set built by the loop of `get_relevant_sources`. -/
def collectSources (results : List Dict) : Finset String :=
  results.foldl
    (fun acc r =>
      match extractFilename r with
      | some n => insert n acc
      | Option.none => acc) ∅

/-- `get_relevant_sources(results) = sorted(list(sources))`. -/
def get_relevant_sources (results : List Dict) : List String :=
  (collectSources results).sort (· ≤ ·)

/-! ## `TextChunker` (src/src/embedding/chunker.py) -/

/-- Python slice index normalisation for `text[a:b]`. -/
def clampIdx (len : ℕ) (i : ℤ) : ℕ :=
  if i < 0 then (max 0 ((len : ℤ) + i)).toNat else min i.toNat len

/-- Python slice `l[a:b]`. -/
def pySlice (l : PyStr) (a b : ℤ) : PyStr :=
  (l.take (clampIdx l.length b)).drop (clampIdx l.length a)

/-- Python indexing `l[i]` (negative indices wrap).  An index out of range
raises `IndexError` in Python; the placeholder default is never reached in
the runs the theorems consider. -/
def pyIndex (l : PyStr) (i : ℤ) : Char :=
  if 0 ≤ i then l.getD i.toNat (Char.ofNat 0)
  else l.getD ((l.length : ℤ) + i).toNat (Char.ofNat 0)

/-- Backward scan `for i in range(n-1, -1, -1)`, returning the first index
satisfying `P`, i.e. the largest one below `n`. -/
def scanBack (P : ℕ → Bool) : ℕ → Option ℕ
  | 0 => Option.none
  | n + 1 => if P n then some n else scanBack P n

/-- `c in '.!?'`. -/
def isTerminal (c : Char) : Bool := c = '.' || c = '!' || c = '?'

/-- `TextChunker._find_sentence_boundary(text, start, end)` (lines 100–111):
scan the last 200 characters of the window backwards for sentence-ending
punctuation followed by whitespace or the end of the search slice; return
the position just after it, or `-1`. -/
def find_sentence_boundary (text : PyStr) (start e : ℤ) : ℤ :=
  let ss := max start (e - 200)
  let st := pySlice text ss e
  match scanBack
      (fun i => isTerminal (st.getD i (Char.ofNat 0))
        && (decide (st.length ≤ i + 1) || pyIsSpace (st.getD (i + 1) (Char.ofNat 0))))
      st.length with
  | some i => ss + (i : ℤ) + 1
  | Option.none => -1

/-- `TextChunker._find_word_boundary(text, start, end)` (lines 113–120):
`for i in range(end-1, start, -1)`, return `i + 1` for the first whitespace
found, else `-1`.  The loop index is `i = start + 1 + k`, with `k` scanned
downwards from the count of range elements. -/
def find_word_boundary (text : PyStr) (start e : ℤ) : ℤ :=
  match scanBack (fun k => pyIsSpace (pyIndex text (start + 1 + (k : ℤ))))
      (e - 1 - start).toNat with
  | some k => start + 1 + (k : ℤ) + 1
  | Option.none => -1

/-- The window-end choice of `chunk_text` (lines 44–57): `end = start +
chunk_size`; if that lies strictly inside the text, prefer a sentence
boundary, then a word boundary, each used only when it advances past
`start`. -/
def chooseEnd (text : PyStr) (start e0 : ℤ) : ℤ :=
  if e0 < (text.length : ℤ) then
    let se := find_sentence_boundary text start e0
    if start < se then se
    else
      let we := find_word_boundary text start e0
      if start < we then we else e0
  else e0

/-- Replace each maximal run of at least `thresh` copies of `c` by `keep`
copies (the two `re.sub` calls of `_clean_text`); `run` counts pending copies
of `c`. -/
def collapseRunsAux (c : Char) (thresh keep : ℕ) : PyStr → ℕ → PyStr
  | [], run => List.replicate (if thresh ≤ run then keep else run) c
  | x :: xs, run =>
    if x = c then collapseRunsAux c thresh keep xs (run + 1)
    else List.replicate (if thresh ≤ run then keep else run) c
      ++ x :: collapseRunsAux c thresh keep xs 0

/-- `re.sub(c{thresh,}, c*keep, l)` for a single character class. -/
def collapseRuns (c : Char) (thresh keep : ℕ) (l : PyStr) : PyStr :=
  collapseRunsAux c thresh keep l 0

/-- `text.split(c)` for a single character separator. -/
def splitCharAux (c : Char) : PyStr → PyStr → List PyStr
  | [], acc => [acc.reverse]
  | x :: xs, acc =>
    if x = c then acc.reverse :: splitCharAux c xs []
    else splitCharAux c xs (x :: acc)

/-- `TextChunker._clean_text` (lines 86–98): collapse 3+ newlines to 2,
collapse 2+ spaces to 1, strip every line, re-join with newlines, strip. -/
def cleanText (l : PyStr) : PyStr :=
  let t1 := collapseRuns '\n' 3 2 l
  let t2 := collapseRuns ' ' 2 1 t1
  pyStrip (pyJoin ['\n'] ((splitCharAux '\n' t2 []).map pyStrip))

/-- The `TextChunker` configuration (`chunk_size`, `chunk_overlap`). -/
structure Cfg where
  chunk_size : ℤ
  chunk_overlap : ℤ

/-- The record built at lines 63–68, before the metadata update. -/
def baseChunk (t : PyStr) (cid s e : ℤ) : Dict := fun k =>
  if k = "text" then some (Val.str t)
  else if k = "chunk_id" then some (Val.int cid)
  else if k = "start_pos" then some (Val.int s)
  else if k = "end_pos" then some (Val.int e)
  else Option.none

/-- One iteration of the `while start < len(text)` loop of `chunk_text`
(lines 43–82): `Sum.inl` carries the next `(start, chunk_id, chunks)` state,
`Sum.inr` the final chunk list on loop exit.  The new start is
`end - chunk_overlap` unless the guard at line 81 fires; that line parses as
`if ((start <= chunks[-1]['start_pos']) if chunks else 0):` — the whole
condition is a conditional expression, comparing the new start against the
*last emitted* record's (possibly metadata-overridden) `start_pos`, and falsy
when no chunk has been emitted yet.  The loop below runs on explicit fuel:
`Option.none` means the fuel ran out, so `Option.none` for every fuel
witnesses non-termination of the Python loop. -/
def chunkStep (cfg : Cfg) (meta : Dict) (text : PyStr) (start cid : ℤ)
    (chunks : List Dict) : (ℤ × ℤ × List Dict) ⊕ List Dict :=
  if start < (text.length : ℤ) then
    let e := chooseEnd text start (start + cfg.chunk_size)
    let ct := pyStrip (pySlice text start e)
    let chunks' := if ct = [] then chunks
      else chunks ++ [dictUpdate (baseChunk ct cid start e) meta]
    let cid' := if ct = [] then cid else cid + 1
    let s1 := e - cfg.chunk_overlap
    let s2 := match chunks'.getLast? with
      | some d => if s1 ≤ pyGetInt d "start_pos" then e else s1
      | Option.none => s1
    Sum.inl (s2, cid', chunks')
  else Sum.inr chunks

/-- The fuelled iteration of `chunkStep`. -/
def chunkLoop (cfg : Cfg) (meta : Dict) (text : PyStr) :
    ℕ → ℤ → ℤ → List Dict → Option (List Dict)
  | 0, _, _, _ => Option.none
  | fuel + 1, start, cid, chunks =>
    match chunkStep cfg meta text start cid chunks with
    | Sum.inl (s2, cid', chunks') => chunkLoop cfg meta text fuel s2 cid' chunks'
    | Sum.inr res => some res

/-- The window text of one iteration (`text[start:end].strip()`), as a view
of the step's let-bindings. -/
def winCt (cfg : Cfg) (text : PyStr) (s : ℤ) : PyStr :=
  pyStrip (pySlice text s (chooseEnd text s (s + cfg.chunk_size)))

/-- The chunk list after one iteration, as a view of the step. -/
def stepCh (cfg : Cfg) (meta : Dict) (text : PyStr) (s c : ℤ)
    (ch : List Dict) : List Dict :=
  if winCt cfg text s = [] then ch
  else ch ++ [dictUpdate
    (baseChunk (winCt cfg text s) c s (chooseEnd text s (s + cfg.chunk_size))) meta]

/-- The chunk-id counter after one iteration. -/
def stepC (cfg : Cfg) (text : PyStr) (s c : ℤ) : ℤ :=
  if winCt cfg text s = [] then c else c + 1

/-- The next window start after one iteration (the guard of line 81). -/
def stepS (cfg : Cfg) (meta : Dict) (text : PyStr) (s c : ℤ)
    (ch : List Dict) : ℤ :=
  match (stepCh cfg meta text s c ch).getLast? with
  | some d =>
    if chooseEnd text s (s + cfg.chunk_size) - cfg.chunk_overlap ≤ pyGetInt d "start_pos"
    then chooseEnd text s (s + cfg.chunk_size)
    else chooseEnd text s (s + cfg.chunk_size) - cfg.chunk_overlap
  | Option.none => chooseEnd text s (s + cfg.chunk_size) - cfg.chunk_overlap

/-- `TextChunker.chunk_text(text, metadata)` (lines 22–84).  The guard at
line 33 tests `not text or not text.strip()`, equivalent to the single strip
test.  Passing `emptyDict` for `meta` is Python's `metadata=None`: updating
with it is the identity, exactly like the skipped `if metadata:` update. -/
def chunk_text (cfg : Cfg) (meta : Dict) (text : PyStr) (fuel : ℕ) :
    Option (List Dict) :=
  if pyStrip text = [] then some []
  else chunkLoop cfg meta (cleanText text) fuel 0 0 []

/-- `text.split('\n\n')`: split on each non-overlapping double newline,
scanning left to right. -/
def splitNNAux : PyStr → PyStr → List PyStr
  | [], acc => [acc.reverse]
  | '\n' :: '\n' :: rest, acc => acc.reverse :: splitNNAux rest []
  | x :: rest, acc => splitNNAux rest (x :: acc)

/-- The record built for a small paragraph (lines 144–147): only `text` and
`chunk_id`, no position fields. -/
def smallChunk (t : PyStr) (cid : ℤ) : Dict := fun k =>
  if k = "text" then some (Val.str t)
  else if k = "chunk_id" then some (Val.int cid)
  else Option.none

/-- The renumbering loop at lines 155–158: `sub_chunk['chunk_id'] = chunk_id`
for each sub-chunk in order.  This runs *after* the metadata update inside
`chunk_text`, so it overwrites any caller-supplied `chunk_id`. -/
def assignIds : List Dict → ℤ → List Dict
  | [], _ => []
  | d :: ds, cid => dictSet d "chunk_id" (Val.int cid) :: assignIds ds (cid + 1)

/-- The paragraph loop of `chunk_by_paragraphs` (lines 137–158). -/
def paraLoop (cfg : Cfg) (meta : Dict) (fuel : ℕ) :
    List PyStr → ℤ → List Dict → Option (List Dict)
  | [], _, acc => some acc
  | p :: ps, cid, acc =>
    let para := pyStrip p
    if para = [] then paraLoop cfg meta fuel ps cid acc
    else if (para.length : ℤ) ≤ cfg.chunk_size then
      paraLoop cfg meta fuel ps (cid + 1) (acc ++ [dictUpdate (smallChunk para cid) meta])
    else
      match chunk_text cfg meta para fuel with
      | some subs =>
        paraLoop cfg meta fuel ps (cid + (subs.length : ℤ)) (acc ++ assignIds subs cid)
      | Option.none => Option.none

/-- `TextChunker.chunk_by_paragraphs(text, metadata)` (lines 122–160). -/
def chunk_by_paragraphs (cfg : Cfg) (meta : Dict) (text : PyStr) (fuel : ℕ) :
    Option (List Dict) :=
  paraLoop cfg meta fuel (splitNNAux text []) 0 []

/-! ## `OpenAIEmbedder` (src/src/embedding/embedder.py) -/

/-- The `valid_texts[i:i+batch_size]` slices of the loop at line 75.  Python
raises `ValueError` for a zero range step; that case is mapped to no batches
and is outside the claims, which assume `batch_size ≥ 1`. -/
def listBatchesAux (bs : ℕ) : ℕ → List PyStr → List (List PyStr)
  | 0, _ => []
  | _ + 1, [] => []
  | f + 1, x :: xs => (x :: xs).take bs :: listBatchesAux bs f ((x :: xs).drop bs)

/-- The batch list; the structural fuel `l.length` always suffices since each
step drops at least one element when `bs ≥ 1`. -/
def listBatches (bs : ℕ) (l : List PyStr) : List (List PyStr) :=
  match bs with
  | 0 => []
  | bs + 1 => listBatchesAux (bs + 1) l.length l

/-- `OpenAIEmbedder.embed_batch(texts, batch_size)` (lines 51–90), with the
per-call API response abstracted as the total function `f`: the claims assume
every upstream call succeeds, and a successful batch call returns one vector
per batch element in order (`[item.embedding for item in response.data]`). -/
def embed_batch (f : PyStr → List ℚ) (texts : List PyStr) (bs : ℕ) :
    Except PyStr (List (List ℚ)) :=
  if texts = [] then Except.ok []
  else
    let valid := texts.filter (fun t => !t.isEmpty && !(pyStrip t).isEmpty)
    if valid = [] then Except.error (S "No valid texts to embed")
    else Except.ok ((listBatches bs valid).map (fun b => b.map f)).flatten

/-- The zip-assignment loop of `embed_chunks` (lines 112–113): `zip`
truncates, so chunks beyond the embeddings list come back unchanged. -/
def zipAssign : List Dict → List (List ℚ) → List Dict
  | cs, [] => cs
  | [], _ :: _ => []
  | c :: cs, e :: es => dictSet c "embedding" (Val.vec e) :: zipAssign cs es

/-- `OpenAIEmbedder.embed_chunks(chunks)` (lines 92–115); `embed_batch` is
called with its default `batch_size = 100`. -/
def embed_chunks (f : PyStr → List ℚ) (chunks : List Dict) :
    Except PyStr (List Dict) :=
  match chunks with
  | [] => Except.ok []
  | c :: cs =>
    match embed_batch f ((c :: cs).map (fun d => pyGetStrD d "text" [])) 100 with
    | Except.ok embs => Except.ok (zipAssign (c :: cs) embs)
    | Except.error e => Except.error e

/-! ## Spec-side window-end rule (claim C5)

`specChooseEndClaim` renders the claim's rule exactly as written — a
terminator "followed by whitespace or by end-of-text" — while
`specChooseEndWindow` is the amended rule, with "or standing at the final
position of the candidate window".  Both scan absolute positions of the full
text, where the source scans a slice. -/

/-- Modelled from the spec: rule (1) of claim C5 as written — the position
just after the last sentence-terminal character within the final 200
characters of the candidate window that is followed by whitespace or by
end-of-text. -/
def specSentClaim (text : PyStr) (start e0 : ℤ) : Option ℤ :=
  let lo := max start (e0 - 200)
  match scanBack
      (fun k => isTerminal (pyIndex text (lo + (k : ℤ)))
        && (decide (lo + (k : ℤ) + 1 = (text.length : ℤ))
            || pyIsSpace (pyIndex text (lo + (k : ℤ) + 1))))
      (e0 - lo).toNat with
  | some k => some (lo + (k : ℤ) + 1)
  | Option.none => Option.none

/-- Modelled from the spec, amended: the terminator may instead stand at the
final position of the candidate window (`p + 1 = e0`). -/
def specSentWindow (text : PyStr) (start e0 : ℤ) : Option ℤ :=
  let lo := max start (e0 - 200)
  match scanBack
      (fun k => isTerminal (pyIndex text (lo + (k : ℤ)))
        && (decide (lo + (k : ℤ) + 1 = e0)
            || pyIsSpace (pyIndex text (lo + (k : ℤ) + 1))))
      (e0 - lo).toNat with
  | some k => some (lo + (k : ℤ) + 1)
  | Option.none => Option.none

/-- Modelled from the spec: rule (2) of claim C5 — the position just after
the last whitespace character strictly between `start` and the candidate
end. -/
def specWordEnd (text : PyStr) (start e0 : ℤ) : Option ℤ :=
  match scanBack (fun k => pyIsSpace (pyIndex text (start + 1 + (k : ℤ))))
      (e0 - 1 - start).toNat with
  | some k => some (start + 1 + (k : ℤ) + 1)
  | Option.none => Option.none

/-- The priority rule of claim C5 as written. -/
def specChooseEndClaim (text : PyStr) (start e0 : ℤ) : ℤ :=
  match specSentClaim text start e0 with
  | some p => p
  | Option.none =>
    match specWordEnd text start e0 with
    | some w => w
    | Option.none => e0

/-- The amended priority rule: window-final terminators also count. -/
def specChooseEndWindow (text : PyStr) (start e0 : ℤ) : ℤ :=
  match specSentWindow text start e0 with
  | some p => p
  | Option.none =>
    match specWordEnd text start e0 with
    | some w => w
    | Option.none => e0

/-! ## Concrete instances used by counterexamples and witnesses -/

/-- The default `TextChunker()` configuration. -/
def cfgDefault : Cfg := ⟨1000, 200⟩

/-- `TextChunker(chunk_size=3, chunk_overlap=2)`: a configuration with
`0 ≤ chunk_overlap < chunk_size` on which the window loop stalls. -/
def cfg32 : Cfg := ⟨3, 2⟩

/-- `TextChunker(chunk_size=4, chunk_overlap=0)`. -/
def cfg40 : Cfg := ⟨4, 0⟩

/-- `TextChunker(chunk_size=5, chunk_overlap=0)`. -/
def cfg50 : Cfg := ⟨5, 0⟩

/-- A caller metadata mapping that collides with the internal `chunk_id`. -/
def metaId99 : Dict := fun k =>
  if k = "chunk_id" then some (Val.int 99) else Option.none

/-- A caller metadata mapping attaching a source filename. -/
def metaSrc : Dict := fun k =>
  if k = "filename" then some (Val.str (S "a.txt")) else Option.none

/-- A result record whose `filename` field is the empty string. -/
def emptyNameDict : Dict := fun k =>
  if k = "filename" then some (Val.str []) else Option.none

/-- A result record with empty `filename` and text `"hi"`. -/
def emptyNameTextDict : Dict := fun k =>
  if k = "filename" then some (Val.str [])
  else if k = "text" then some (Val.str (S "hi"))
  else Option.none

/-- A result record carrying just a filename. -/
def nameDict (s : String) : Dict := fun k =>
  if k = "filename" then some (Val.str s.data) else Option.none

/-- A chunk record carrying just a text. -/
def textDict (s : String) : Dict := fun k =>
  if k = "text" then some (Val.str s.data) else Option.none

/-- A stand-in embedding oracle: the length of the text as a one-entry
vector (it distinguishes texts of different lengths). -/
def embLenFn (t : PyStr) : List ℚ := [(t.length : ℚ)]

/-- The loop state the stalling run of claim C3 keeps returning to (the two
chunks emitted before the stall). -/
def stallChunks : List Dict :=
  [ dictUpdate (baseChunk (S "ab") 0 0 3) emptyDict
  , dictUpdate (baseChunk (S "b") 1 1 4) emptyDict ]

/-- Chunk-id observations of a chunk list. -/
def idsOf (cs : List Dict) : List ℤ := cs.map (fun d => pyGetInt d "chunk_id")

/-- Position observations of a chunk list. -/
def posOf (cs : List Dict) : List (ℤ × ℤ) :=
  cs.map (fun d => (pyGetInt d "start_pos", pyGetInt d "end_pos"))

/-- Total length of a list of strings. -/
def sumLens (ps : List PyStr) : ℕ := (ps.map List.length).sum

/-- `[a, a+1, ..., a+n-1]` over the integers (the contiguous id sequence). -/
def intRange (a : ℤ) (n : ℕ) : List ℤ :=
  (List.range n).map (fun (j : ℕ) => a + (j : ℤ))

/-- The position well-formedness of one chunk record, relative to a text
length and a chunk size. -/
def chunkOk (len csz : ℤ) (d : Dict) : Prop :=
  0 ≤ pyGetInt d "start_pos"
    ∧ pyGetInt d "start_pos" < pyGetInt d "end_pos"
    ∧ (pyGetInt d "end_pos" ≤ len
        ∨ pyGetInt d "end_pos" = pyGetInt d "start_pos" + csz)

/-! ## `ChatbotEngine.get_answer` (src/app.py, lines 137–164)

Only the pure post-processing of the generated answer is embedded: the
LangChain call and the exception path are I/O.  The uncertainty phrases are
written with an explicit apostrophe character. -/

/-- The uncertainty phrase list of `get_answer` (already lowercase in the
source). -/
def uncertaintyPhrases : List PyStr :=
  [ S "i don" ++ [apos] ++ S "t know"
  , S "not mentioned"
  , S "no information"
  , S "cannot find"
  , S "not found"
  , S "doesn" ++ [apos] ++ S "t say"
  , S "not provided" ]

/-- The fixed fallback message of `get_answer`. -/
def fallbackMsg : PyStr :=
  S "I couldn" ++ [apos] ++ S "t find that info in the uploaded documents."

/-- The answer post-processing of `ChatbotEngine.get_answer`:
`if not answer or len(answer.strip()) < 10: return FALLBACK`, then
`if any(phrase in answer.lower() for phrase in uncertainty_phrases):
return FALLBACK`, else the answer unchanged. -/
def answerFilter (answer : PyStr) : PyStr :=
  if answer = [] ∨ (pyStrip answer).length < 10 then fallbackMsg
  else if uncertaintyPhrases.any (fun p => listContains (pyLower answer) p) then fallbackMsg
  else answer

/-- C6: `get_answer` replaces the generated answer by the fallback message
exactly when the trimmed answer is shorter than 10 characters or the answer
contains one of the uncertainty phrases case-insensitively; in particular
"I don't know" and a 9-character answer are replaced, while 50 unrelated
characters pass through unchanged. -/
theorem C6_answer_substitution :
    (∀ answer : PyStr,
      answerFilter answer =
        if (pyStrip answer).length < 10
            ∨ uncertaintyPhrases.any (fun p => listContains (pyLower answer) p) = true
        then fallbackMsg else answer)
    ∧ answerFilter (S "I don" ++ [apos] ++ S "t know") = fallbackMsg
    ∧ answerFilter (S "wait here") = fallbackMsg
    ∧ answerFilter (S "Our final report covers ten categories of results.")
        = S "Our final report covers ten categories of results." := by
  refine ⟨?_, by decide, by decide, by decide⟩
  intro answer
  unfold answerFilter
  by_cases hlen : (pyStrip answer).length < 10
  · simp [hlen]
  · by_cases hz : answer = []
    · subst hz; exact absurd hlen (by decide)
    · by_cases hph : uncertaintyPhrases.any (fun p => listContains (pyLower answer) p) = true
      · simp [hlen, hz, hph]
      · simp [hlen, hz, hph]

/-! # Counterexamples and the non-termination bug -/

/-- C1 fails as stated: with six default-rendered results (each part is 39
characters) and `max_length = 234`, the packing loop appends all six parts
(their lengths sum to exactly 234), but `"\n".join` inserts five separators
the loop never counted, so the returned string has length 239 > 234 + 4. -/
theorem C1_cex :
    (format_context (List.replicate 6 emptyDict) 234).length = 239
    ∧ ¬ (format_context (List.replicate 6 emptyDict) 234).length ≤ 234 + 4 := by
  have h : (format_context (List.replicate 6 emptyDict) 234).length = 239 := rfl
  exact ⟨h, by rw [h]; omega⟩

/-- C2 fails as stated: on input `"hello"` with the default configuration the
single chunk records `end_pos = 1000`, far beyond the cleaned text's length 5
(the final window keeps the unclamped `start + chunk_size`); and a
small-paragraph record of `chunk_by_paragraphs` carries no `start_pos` or
`end_pos` field at all. -/
theorem C2_cex :
    (chunk_text cfgDefault emptyDict (S "hello") 5).map posOf = some [(0, 1000)]
    ∧ ((cleanText (S "hello")).length : ℤ) = 5
    ∧ ¬ ((1000 : ℤ) ≤ 5)
    ∧ (chunk_by_paragraphs cfgDefault emptyDict (S "hi") 5).map
        (fun cs => cs.map (fun d => ((d "start_pos").isNone, (d "end_pos").isNone)))
      = some [(true, true)] := by
  exact ⟨rfl, rfl, by decide, rfl⟩

/-- The stalled state of the chunking loop maps to itself: at `start = 2` on
`"ab\n\ncde"` with `chunk_size = 3`, `chunk_overlap = 2`, the window `[2, 4)`
is the all-whitespace `"\n\n"`, the chunk is dropped, the next start is
`4 - 2 = 2`, and the anti-stall guard does not fire because it compares
against the last *emitted* chunk's `start_pos = 1 < 2`. -/
theorem chunkStep_stall :
    chunkStep cfg32 emptyDict (S "ab\n\ncde") 2 2 stallChunks
      = Sum.inl (2, 2, stallChunks) := rfl

/-- Iterating from the stalled state never terminates, whatever the fuel. -/
theorem chunkLoop_stall (f : ℕ) :
    chunkLoop cfg32 emptyDict (S "ab\n\ncde") f 2 2 stallChunks = Option.none := by
  induction f with
  | zero => rfl
  | succ n ih =>
    show chunkLoop cfg32 emptyDict (S "ab\n\ncde") (n + 1) 2 2 stallChunks = Option.none
    rw [chunkLoop, chunkStep_stall]
    exact ih

/-- C3 (code bug): `chunk_text` does not terminate on the input
`"ab\n\ncde"` with `chunk_size = 3` and `chunk_overlap = 2`, a configuration
satisfying `0 ≤ chunk_overlap < chunk_size`: after emitting chunks at starts
0 and 1, the loop reaches `start = 2` and reproduces that exact state forever
(the model returns `Option.none` for every fuel).  The source's own comment
("Ensure we make progress") shows the guard at line 81 was meant to prevent
this; it fails because the line parses as a conditional expression and
compares against the last emitted chunk's `start_pos` instead of the current
window's start. -/
theorem C3_nonterminating :
    ∀ fuel : ℕ, chunk_text cfg32 emptyDict (S "ab\n\ncde") fuel = Option.none := by
  intro fuel
  match fuel with
  | 0 => rfl
  | 1 => rfl
  | (f + 2) =>
    have h : chunk_text cfg32 emptyDict (S "ab\n\ncde") (f + 2)
        = chunkLoop cfg32 emptyDict (S "ab\n\ncde") f 2 2 stallChunks := rfl
    rw [h]
    exact chunkLoop_stall f

/-- C4 fails as stated: `embed_batch` first filters out empty/whitespace
texts, so on `["", "hi"]` it returns one vector, not two; consequently
`embed_chunks` zips the surviving vectors against *all* chunks and attaches
to the empty-text chunk the embedding of `"hi"` — not the embedding of its
own text. -/
theorem C4_cex :
    (embed_batch embLenFn [[], S "hi"] 100).toOption.map List.length = some 1
    ∧ ([([] : PyStr), S "hi"].length = 2)
    ∧ (1 : ℕ) ≠ 2
    ∧ (embed_chunks embLenFn [textDict "", textDict "hi"]).toOption.map
        (fun cs => (cs.headD emptyDict) "embedding") = some (some (Val.vec [(2 : ℚ)]))
    ∧ embLenFn (textDict "" |> (fun d => pyGetStrD d "text" [])) = [(0 : ℚ)]
    ∧ Val.vec [(2 : ℚ)] ≠ Val.vec [(0 : ℚ)] := by
  refine ⟨rfl, rfl, by decide, rfl, by decide, by decide⟩

/-- C5 fails as stated: on `"a b.cdef gh"` with window `[0, 4)` the code's
sentence scan accepts the period at position 3 because it sits at the end of
the search slice (`i + 1 >= len(search_text)`), even though it is followed by
the non-whitespace `'c'` and is nowhere near the end of the text; the claim's
rule, whose terminator must be followed by whitespace or end-of-text, falls
through to the word boundary at position 2.  The produced chunks confirm the
code's choice `end_pos = 4`. -/
theorem C5_cex :
    chooseEnd (S "a b.cdef gh") 0 4 = 4
    ∧ specChooseEndClaim (S "a b.cdef gh") 0 4 = 2
    ∧ (4 : ℤ) ≠ 2
    ∧ (chunk_text cfg40 emptyDict (S "a b.cdef gh") 10).map posOf
        = some [(0, 4), (4, 8), (8, 12)] := by
  refine ⟨rfl, rfl, by decide, rfl⟩

/-- C7 fails as stated: `chunk_data.update(metadata)` runs after the internal
fields are set, so caller metadata `{'chunk_id': 99}` overwrites the
chunker's sequential id — the single chunk of `"hello"` reports 99, not 0. -/
theorem C7_cex :
    (chunk_text cfgDefault metaId99 (S "hello") 5).map idsOf = some [99]
    ∧ (99 : ℤ) ≠ 0 := ⟨rfl, by decide⟩

/-- C8 fails as stated: for an oversized paragraph, `chunk_by_paragraphs`
reassigns `sub_chunk['chunk_id'] = chunk_id` *after* the metadata update made
inside `chunk_text`, so the caller-supplied `chunk_id` 99 does not take
precedence — the sub-chunks of `"abcdef"` (size 5, overlap 0) come out with
ids 0 and 1. -/
theorem C8_cex :
    metaId99 "chunk_id" = some (Val.int 99)
    ∧ (chunk_by_paragraphs cfg50 metaId99 (S "abcdef") 10).map idsOf = some [0, 1]
    ∧ (0 : ℤ) ≠ 99 := ⟨rfl, rfl, by decide⟩

/-- C9 fails as stated: a result whose `filename` value is the empty string
has a filename value occurring in the results, yet `get_relevant_sources`
skips it (the truthiness test), so the output is `[]` rather than `[""]`. -/
theorem C9_cex :
    emptyNameDict "filename" = some (Val.str [])
    ∧ get_relevant_sources [emptyNameDict] = []
    ∧ ([] : List String) ≠ [""] := by
  refine ⟨rfl, ?_, by decide⟩
  have h : collectSources [emptyNameDict] = ∅ := rfl
  rw [get_relevant_sources, h, Finset.sort_empty]

/-- C10 fails as stated: a result with an *empty* (rather than absent)
`filename` contributes nothing to `get_relevant_sources`, but
`result.get('filename', 'Unknown')` returns the empty string — the key is
present — so `format_context` renders an empty label, not `'Unknown'`. -/
theorem C10_cex :
    get_relevant_sources [emptyNameTextDict] = []
    ∧ format_context [emptyNameTextDict] 4000
        = S "[Source 1:  (relevance: 0.00)]" ++ ['\n'] ++ S "hi" ++ ['\n']
    ∧ listContains (format_context [emptyNameTextDict] 4000) (S "Unknown") = false := by
  refine ⟨?_, rfl, by decide⟩
  have h : collectSources [emptyNameTextDict] = ∅ := rfl
  rw [get_relevant_sources, h, Finset.sort_empty]

/-! # Amended claims: format_context length bound (C1) -/

/-- Length of a single-character join: the parts plus one separator between
each consecutive pair. -/
theorem pyJoin_length_single (c : Char) :
    ∀ ps : List PyStr, (pyJoin [c] ps).length = sumLens ps + (ps.length - 1)
  | [] => by simp [pyJoin, sumLens]
  | [p] => by simp [pyJoin, sumLens]
  | p :: q :: ps => by
    have ih := pyJoin_length_single c (q :: ps)
    simp only [pyJoin, sumLens, List.length_append, List.length_cons, List.length_nil,
      List.map_cons, List.sum_cons] at ih ⊢
    omega

/-- The packing loop counts only the part lengths: their sum never exceeds
the budget plus one `"...\n"` suffix. -/
theorem formatLoop_sumLens (maxLen : ℕ) :
    ∀ (rs : List Dict) (i cur : ℕ), cur ≤ maxLen →
      sumLens (formatLoop maxLen rs i cur) + cur ≤ maxLen + 4
  | [], i, cur, h => by
    simp only [formatLoop, sumLens, List.map_nil, List.sum_nil]
    omega
  | r :: rs, i, cur, h => by
    simp only [formatLoop]
    split
    · split
      · have ht : ((mkChunk i r).take (maxLen - cur) ++ S "...\n").length
            ≤ (maxLen - cur) + 4 := by
          rw [List.length_append, List.length_take]
          have h4 : (S "...\n").length = 4 := rfl
          omega
        simp only [sumLens, List.map_cons, List.map_nil, List.sum_cons, List.sum_nil]
        omega
      · simp only [sumLens, List.map_nil, List.sum_nil]
        omega
    · rename_i hfit
      have hfit' : cur + (mkChunk i r).length ≤ maxLen := by omega
      have ih := formatLoop_sumLens maxLen rs (i + 1) (cur + (mkChunk i r).length) hfit'
      simp only [sumLens, List.map_cons, List.sum_cons] at ih ⊢
      omega

/-- The loop emits at most one part per result. -/
theorem formatLoop_count (maxLen : ℕ) :
    ∀ (rs : List Dict) (i cur : ℕ), (formatLoop maxLen rs i cur).length ≤ rs.length
  | [], _, _ => by simp [formatLoop]
  | r :: rs, i, cur => by
    simp only [formatLoop]
    split
    · split
      · simp only [List.length_cons, List.length_nil]
        omega
      · simp only [List.length_nil, List.length_cons]
        omega
    · simp only [List.length_cons]
      exact Nat.succ_le_succ (formatLoop_count maxLen rs (i + 1) (cur + (mkChunk i r).length))

/-- C1 amended: the sum of the packed part lengths — the quantity the loop
compares against `max_length` — is at most `max_length + 4`, and the
`"\n".join` adds one uncounted separator between consecutive parts, so the
returned string's length is at most `max_length + 4` plus one character per
additional result. -/
theorem C1_amended (results : List Dict) (maxLen : ℕ) :
    (format_context results maxLen).length ≤ maxLen + 4 + (results.length - 1) := by
  match results with
  | [] => simp [format_context]
  | r :: rs =>
    have h1 := formatLoop_sumLens maxLen (r :: rs) 1 0 (Nat.zero_le _)
    have h2 := formatLoop_count maxLen (r :: rs) 1 0
    have h3 := pyJoin_length_single '\n' (formatLoop maxLen (r :: rs) 1 0)
    simp only [format_context]
    simp only [List.length_cons] at h2 ⊢
    omega

/-! # Amended claims: the embedder (C4) -/

/-- The structural fuel of `listBatchesAux` is sufficient: flattening the
batches gives back the batched list. -/
theorem listBatchesAux_flatten (bs : ℕ) :
    ∀ (f : ℕ) (l : List PyStr), l.length ≤ f →
      (listBatchesAux (bs + 1) f l).flatten = l
  | 0, l, h => by
    have hl : l = [] := List.length_eq_zero.mp (Nat.le_zero.mp h)
    subst hl; rfl
  | f + 1, [], _ => rfl
  | f + 1, x :: xs, h => by
    simp only [List.length_cons] at h
    simp only [listBatchesAux, List.flatten_cons]
    rw [listBatchesAux_flatten bs f ((x :: xs).drop (bs + 1))
      (by simp only [List.length_drop, List.length_cons]; omega)]
    exact List.take_append_drop _ _

/-- Batching then flattening is the identity on the valid list. -/
theorem listBatches_flatten (bs : ℕ) (hbs : 1 ≤ bs) (l : List PyStr) :
    (listBatches bs l).flatten = l := by
  match bs, hbs with
  | b + 1, _ =>
    simp only [listBatches]
    exact listBatchesAux_flatten b l.length l le_rfl

/-- Mapping the per-batch responses and extending is a single ordered map. -/
theorem batches_map_flatten (f : PyStr → List ℚ) (bs : ℕ) (hbs : 1 ≤ bs)
    (l : List PyStr) :
    ((listBatches bs l).map (fun b => b.map f)).flatten = l.map f := by
  have h : ((listBatches bs l).map (List.map f)).flatten = l.map f := by
    rw [← List.map_flatten, listBatches_flatten bs hbs l]
  exact h

/-- The batched embedding calls concatenate to a single ordered map over the
filtered texts. -/
theorem embed_batch_eq (f : PyStr → List ℚ) (texts : List PyStr) (bs : ℕ)
    (hbs : 1 ≤ bs) :
    embed_batch f texts bs =
      if texts = [] then Except.ok []
      else if texts.filter (fun t => !t.isEmpty && !(pyStrip t).isEmpty) = [] then
        Except.error (S "No valid texts to embed")
      else Except.ok ((texts.filter (fun t => !t.isEmpty && !(pyStrip t).isEmpty)).map f) := by
  simp only [embed_batch]
  split
  · rfl
  · split
    · rfl
    · exact congrArg Except.ok (batches_map_flatten f bs hbs _)

/-- When every text is non-whitespace nothing is filtered and the batches
reproduce the whole input in order. -/
theorem embed_batch_total (f : PyStr → List ℚ) (texts : List PyStr) (bs : ℕ)
    (hbs : 1 ≤ bs) (hne : ∀ t ∈ texts, (pyStrip t).isEmpty = false) :
    embed_batch f texts bs = Except.ok (texts.map f) := by
  have hfil : texts.filter (fun t => !t.isEmpty && !(pyStrip t).isEmpty) = texts := by
    apply List.filter_eq_self.mpr
    intro t ht
    have h1 := hne t ht
    have h2 : t.isEmpty = false := by
      cases t with
      | nil => exact absurd h1 (by decide)
      | cons x xs => rfl
    simp [h1, h2]
  rw [embed_batch_eq f texts bs hbs, hfil]
  split
  · rename_i hnil; subst hnil; rfl
  · rfl

/-- Zipping chunk records against the embeddings of their own texts attaches
each chunk its own vector. -/
theorem zipAssign_map (f : PyStr → List ℚ) :
    ∀ cs : List Dict,
      zipAssign cs ((cs.map (fun d => pyGetStrD d "text" [])).map f)
        = cs.map (fun c => dictSet c "embedding" (Val.vec (f (pyGetStrD c "text" []))))
  | [] => rfl
  | c :: cs => by
    simp only [List.map_cons, zipAssign]
    rw [zipAssign_map f cs]

/-- C4 amended: for `batch_size ≥ 1`, `embed_batch` returns exactly one
embedding per *non-whitespace* element, in input order (the batched calls
concatenate to a single map over the filtered list); when every input text is
non-whitespace the output length equals the input length, and `embed_chunks`
then attaches to each chunk the embedding of that chunk's own text. -/
theorem C4_amended :
    (∀ (f : PyStr → List ℚ) (texts : List PyStr) (bs : ℕ), 1 ≤ bs →
      embed_batch f texts bs =
        if texts = [] then Except.ok []
        else if texts.filter (fun t => !t.isEmpty && !(pyStrip t).isEmpty) = [] then
          Except.error (S "No valid texts to embed")
        else Except.ok ((texts.filter (fun t => !t.isEmpty && !(pyStrip t).isEmpty)).map f))
    ∧ (∀ (f : PyStr → List ℚ) (texts : List PyStr) (bs : ℕ), 1 ≤ bs →
        (∀ t ∈ texts, (pyStrip t).isEmpty = false) →
        embed_batch f texts bs = Except.ok (texts.map f)
        ∧ (texts.map f).length = texts.length)
    ∧ (∀ (f : PyStr → List ℚ) (chunks : List Dict),
        (∀ c ∈ chunks, (pyStrip (pyGetStrD c "text" [])).isEmpty = false) →
        embed_chunks f chunks
          = Except.ok (chunks.map (fun c =>
              dictSet c "embedding" (Val.vec (f (pyGetStrD c "text" [])))))) := by
  refine ⟨embed_batch_eq, ?_, ?_⟩
  · intro f texts bs hbs hne
    exact ⟨embed_batch_total f texts bs hbs hne, List.length_map _ _⟩
  · intro f chunks hne
    match chunks with
    | [] => rfl
    | c :: cs =>
      have hall : ∀ t ∈ (c :: cs).map (fun d => pyGetStrD d "text" []),
          (pyStrip t).isEmpty = false := by
        intro t ht
        obtain ⟨d, hd, rfl⟩ := List.mem_map.mp ht
        exact hne d hd
      simp only [embed_chunks]
      rw [embed_batch_total f _ 100 (by omega) hall]
      show Except.ok
          (zipAssign (c :: cs) (((c :: cs).map (fun d => pyGetStrD d "text" [])).map f)) = _
      rw [zipAssign_map f (c :: cs)]

/-- Witness for C4: concrete instances of all three parts. -/
theorem C4_w :
    embed_batch embLenFn [S "hi"] 100 = Except.ok [[((2 : ℕ) : ℚ)]]
    ∧ embed_chunks embLenFn [textDict "hi"]
        = Except.ok [dictSet (textDict "hi") "embedding" (Val.vec [((2 : ℕ) : ℚ)])] := by
  constructor
  · have h := (C4_amended.2.1 embLenFn [S "hi"] 100 (by omega)
      (by intro t ht; simp only [List.mem_singleton] at ht; subst ht; rfl)).1
    rw [h]; rfl
  · have h := C4_amended.2.2 embLenFn [textDict "hi"]
      (by intro c hc; simp only [List.mem_singleton] at hc; subst hc; rfl)
    rw [h]; rfl

/-! # Amended claims: source extraction (C9, C10) -/

/-- Membership in the folded `sources` set, for any starting accumulator. -/
theorem mem_collect_general :
    ∀ (results : List Dict) (acc : Finset String) (n : String),
      (n ∈ results.foldl (fun acc r =>
          match extractFilename r with
          | some m => insert m acc
          | Option.none => acc) acc)
        ↔ n ∈ acc ∨ ∃ r ∈ results, extractFilename r = some n
  | [], acc, n => by simp
  | r :: rs, acc, n => by
    rw [List.foldl_cons, mem_collect_general rs _ n]
    cases h : extractFilename r with
    | none =>
      simp only [h, List.mem_cons, exists_eq_or_imp]
      simp
    | some m =>
      simp only [h, Finset.mem_insert, List.mem_cons, exists_eq_or_imp,
        Option.some.injEq]
      constructor
      · rintro ((rfl | hacc) | hex)
        · exact Or.inr (Or.inl rfl)
        · exact Or.inl hacc
        · exact Or.inr (Or.inr hex)
      · rintro (hacc | rfl | hex)
        · exact Or.inl (Or.inr hacc)
        · exact Or.inl (Or.inl rfl)
        · exact Or.inr hex

/-- Membership in `collectSources`. -/
theorem mem_collectSources (results : List Dict) (n : String) :
    n ∈ collectSources results ↔ ∃ r ∈ results, extractFilename r = some n := by
  rw [collectSources, mem_collect_general]
  simp

/-- The filename extraction ignores the `score` field. -/
theorem extractFilename_dictSet_score (d : Dict) (v : Val) :
    extractFilename (dictSet d "score" v) = extractFilename d := rfl

/-- C9 amended: `get_relevant_sources` returns the distinct *non-empty*
filename values occurring in the results, lexicographically sorted, with no
duplicates, and the output is invariant under permutation of the results and
under changes to their scores. -/
theorem C9_amended :
    (∀ results : List Dict, List.Sorted (· ≤ ·) (get_relevant_sources results))
    ∧ (∀ results : List Dict, (get_relevant_sources results).Nodup)
    ∧ (∀ (results : List Dict) (n : String),
        n ∈ get_relevant_sources results ↔ ∃ r ∈ results, extractFilename r = some n)
    ∧ (∀ r1 r2 : List Dict, r1.Perm r2 →
        get_relevant_sources r1 = get_relevant_sources r2)
    ∧ (∀ (results : List Dict) (g : Dict → Val),
        get_relevant_sources (results.map (fun d => dictSet d "score" (g d)))
          = get_relevant_sources results) := by
  have hmem : ∀ (results : List Dict) (n : String),
      n ∈ get_relevant_sources results ↔ ∃ r ∈ results, extractFilename r = some n := by
    intro results n
    rw [get_relevant_sources, Finset.mem_sort]
    exact mem_collectSources results n
  refine ⟨fun _ => Finset.sort_sorted _ _, fun _ => Finset.sort_nodup _ _, hmem, ?_, ?_⟩
  · intro r1 r2 hp
    unfold get_relevant_sources
    congr 1
    apply Finset.ext
    intro n
    rw [mem_collectSources, mem_collectSources]
    constructor
    · rintro ⟨r, hr, he⟩; exact ⟨r, hp.mem_iff.mp hr, he⟩
    · rintro ⟨r, hr, he⟩; exact ⟨r, hp.mem_iff.mpr hr, he⟩
  · intro results g
    unfold get_relevant_sources
    congr 1
    apply Finset.ext
    intro n
    rw [mem_collectSources, mem_collectSources]
    constructor
    · rintro ⟨r, hr, he⟩
      obtain ⟨d, hd, rfl⟩ := List.mem_map.mp hr
      rw [extractFilename_dictSet_score] at he
      exact ⟨d, hd, he⟩
    · rintro ⟨d, hd, he⟩
      exact ⟨dictSet d "score" (g d), List.mem_map_of_mem _ hd,
        by rw [extractFilename_dictSet_score]; exact he⟩

/-- Witness for C9: the permutation-invariance part at a concrete pair. -/
theorem C9_w :
    get_relevant_sources [nameDict "b.txt", nameDict "a.txt"]
      = get_relevant_sources [nameDict "a.txt", nameDict "b.txt"] :=
  C9_amended.2.2.2.1 _ _ (List.Perm.swap _ _ _)

/-- A list is a prefix of itself extended. -/
theorem isPrefixOf_append_self : ∀ (b c : PyStr), b.isPrefixOf (b ++ c) = true
  | [], _ => by simp [List.isPrefixOf]
  | x :: xs, c => by simp [List.isPrefixOf, isPrefixOf_append_self xs c]

/-- A leading match makes `listContains` true. -/
theorem listContains_of_isPrefixOf {hay b : PyStr} (h : b.isPrefixOf hay = true) :
    listContains hay b = true := by
  rw [listContains, List.any_eq_true]
  exact ⟨hay, (List.mem_tails _ _).mpr (List.suffix_refl hay), h⟩

/-- `listContains` is preserved by extending the haystack on the left. -/
theorem listContains_append_gen :
    ∀ (a : PyStr) {m b : PyStr}, listContains m b = true → listContains (a ++ m) b = true
  | [], _, _, h => h
  | x :: a, m, b, h => by
    rw [List.cons_append, listContains, List.any_eq_true]
    have h2 := listContains_append_gen a h
    rw [listContains, List.any_eq_true] at h2
    obtain ⟨t, ht, hp⟩ := h2
    exact ⟨t, by rw [List.tails_cons]; exact List.mem_cons_of_mem _ ht, hp⟩

/-- C10 amended: a result whose `filename` is absent or empty contributes no
entry to `get_relevant_sources` (so the source list can be empty while the
results are not), and `format_context` still renders such a result — labeled
`'Unknown'` when the filename is *absent*, and with an empty label when the
filename is the *empty string* (`dict.get` returns the present value). -/
theorem C10_amended :
    (∀ results : List Dict,
      (∀ r ∈ results, r "filename" = Option.none ∨ r "filename" = some (Val.str [])) →
      get_relevant_sources results = [])
    ∧ (∀ (i : ℕ) (r : Dict), r "filename" = Option.none →
        listContains (mkChunk i r) (S "Unknown") = true)
    ∧ format_context [emptyNameTextDict] 4000
        = S "[Source 1:  (relevance: 0.00)]" ++ ['\n'] ++ S "hi" ++ ['\n'] := by
  refine ⟨?_, ?_, rfl⟩
  · intro results h
    have hempty : collectSources results = ∅ := by
      apply Finset.eq_empty_iff_forall_not_mem.mpr
      intro n hn
      obtain ⟨r, hr, he⟩ := (mem_collectSources results n).mp hn
      rcases h r hr with h1 | h1 <;> rw [extractFilename, h1] at he <;> simp at he
    rw [get_relevant_sources, hempty, Finset.sort_empty]
  · intro i r h
    have hname : pyGetD r "filename" (Val.str (S "Unknown")) = Val.str (S "Unknown") := by
      rw [pyGetD, h]
    rw [mkChunk, hname]
    simp only [strOfVal, List.append_assoc]
    apply listContains_append_gen
    apply listContains_append_gen
    apply listContains_append_gen
    exact listContains_of_isPrefixOf (isPrefixOf_append_self _ _)

/-- Witness for C10: an all-skipped result list and an absent-filename
rendering. -/
theorem C10_w :
    get_relevant_sources [emptyNameDict, emptyDict] = []
    ∧ listContains (mkChunk 3 emptyDict) (S "Unknown") = true := by
  constructor
  · apply C10_amended.1
    intro r hr
    rcases List.mem_cons.mp hr with rfl | hr2
    · right; rfl
    · rcases List.mem_cons.mp hr2 with rfl | hr3
      · left; rfl
      · exact absurd hr3 (List.not_mem_nil _)
  · exact C10_amended.2.1 3 emptyDict rfl

/-! # The chunking loop: invariant machinery (C2, C7, C8) -/

/-- `chunkStep` in terms of its step views. -/
theorem chunkStep_eq (cfg : Cfg) (meta : Dict) (text : PyStr) (s c : ℤ)
    (ch : List Dict) :
    chunkStep cfg meta text s c ch =
      if s < (text.length : ℤ)
      then Sum.inl (stepS cfg meta text s c ch, stepC cfg text s c,
        stepCh cfg meta text s c ch)
      else Sum.inr ch := by
  rw [chunkStep]
  split
  · rfl
  · rfl

/-- Fuel induction for `chunkLoop`: a state predicate preserved by the step
holds, together with the exit condition, at any returned chunk list. -/
theorem chunkLoop_invariant (cfg : Cfg) (meta : Dict) (text : PyStr)
    (P : ℤ → ℤ → List Dict → Prop)
    (hstep : ∀ s c ch, P s c ch → s < (text.length : ℤ) →
      P (stepS cfg meta text s c ch) (stepC cfg text s c)
        (stepCh cfg meta text s c ch)) :
    ∀ (f : ℕ) (s c : ℤ) (ch cs : List Dict),
      P s c ch → chunkLoop cfg meta text f s c ch = some cs →
      ∃ s' c', P s' c' cs ∧ (text.length : ℤ) ≤ s' := by
  intro f
  induction f with
  | zero => intro s c ch cs _ h; exact absurd h (by simp [chunkLoop])
  | succ n ih =>
    intro s c ch cs hP h
    rw [chunkLoop] at h
    cases heq : chunkStep cfg meta text s c ch with
    | inl st =>
      obtain ⟨s2, c2, ch2⟩ := st
      rw [heq] at h
      rw [chunkStep_eq] at heq
      split at heq
      · rename_i hlt
        simp only [Sum.inl.injEq, Prod.mk.injEq] at heq
        obtain ⟨rfl, rfl, rfl⟩ := heq
        exact ih _ _ _ cs (hstep s c ch hP hlt) h
      · exact absurd heq (by simp)
    | inr res =>
      rw [heq] at h
      rw [chunkStep_eq] at heq
      split at heq
      · exact absurd heq (by simp)
      · rename_i hge
        injection heq with heq2
        injection h with h3
        refine ⟨s, c, ?_, by omega⟩
        rw [← h3, ← heq2]
        exact hP

/-- Update with a key the metadata carries: the metadata value wins. -/
theorem dictUpdate_some {d m : Dict} {k : String} {v : Val} (h : m k = some v) :
    dictUpdate d m k = some v := by
  show (match m k with | some v => some v | Option.none => d k) = some v
  rw [h]

/-- Update with a key the metadata lacks: the base value remains. -/
theorem dictUpdate_none {d m : Dict} {k : String} (h : m k = Option.none) :
    dictUpdate d m k = d k := by
  show (match m k with | some v => some v | Option.none => d k) = d k
  rw [h]

/-- Reading an integer field only looks at that key. -/
theorem pyGetInt_congr {d1 d2 : Dict} {k : String} (h : d1 k = d2 k) :
    pyGetInt d1 k = pyGetInt d2 k := by
  unfold pyGetInt
  rw [h]

/-- Reading an integer field through a known lookup. -/
theorem pyGetInt_eq {d : Dict} {k : String} {n : ℤ} (h : d k = some (Val.int n)) :
    pyGetInt d k = n := by
  unfold pyGetInt
  rw [h]

/-! # Amended claims: contiguous chunk ids (C7) -/

theorem intRange_zero (a : ℤ) : intRange a 0 = [] := rfl

theorem intRange_succ (a : ℤ) (n : ℕ) :
    intRange a (n + 1) = intRange a n ++ [a + (n : ℤ)] := by
  simp [intRange, List.range_succ]

theorem intRange_cons (a : ℤ) : ∀ n : ℕ, intRange a (n + 1) = a :: intRange (a + 1) n
  | 0 => by
    rw [intRange, intRange, List.range_zero]
    rw [show List.range 1 = [0] from rfl]
    simp only [List.map_cons, List.map_nil, Nat.cast_zero, add_zero]
  | n + 1 => by
    rw [intRange_succ, intRange_cons a n, intRange_succ]
    have h2 : a + ((n + 1 : ℕ) : ℤ) = (a + 1) + (n : ℤ) := by push_cast; ring
    rw [h2]
    rfl

theorem intRange_append (a : ℤ) (m k : ℕ) :
    intRange a (m + k) = intRange a m ++ intRange (a + (m : ℤ)) k := by
  induction k with
  | zero => simp [intRange_zero]
  | succ k ih =>
    have h1 : m + (k + 1) = (m + k) + 1 := by omega
    rw [h1, intRange_succ, ih, intRange_succ, List.append_assoc]
    have h2 : a + ((m + k : ℕ) : ℤ) = (a + (m : ℤ)) + (k : ℤ) := by push_cast; ring
    rw [h2]

theorem idsOf_append (a b : List Dict) : idsOf (a ++ b) = idsOf a ++ idsOf b := by
  simp [idsOf]

/-- The id field of an emitted `chunk_text` record, when the metadata does
not override it. -/
theorem emitted_chunk_id {meta : Dict} (hm : meta "chunk_id" = Option.none)
    (t : PyStr) (cid s e : ℤ) :
    pyGetInt (dictUpdate (baseChunk t cid s e) meta) "chunk_id" = cid := by
  apply pyGetInt_eq
  rw [dictUpdate_none hm]
  rfl

/-- Ids of the records returned by the window loop are `0, 1, 2, ...`. -/
theorem chunkLoop_ids {cfg : Cfg} {meta : Dict} {text : PyStr}
    (hm : meta "chunk_id" = Option.none) (f : ℕ) (cs : List Dict)
    (h : chunkLoop cfg meta text f 0 0 [] = some cs) :
    idsOf cs = intRange 0 cs.length := by
  have hinv := chunkLoop_invariant cfg meta text
    (fun _ c ch => idsOf ch = intRange 0 ch.length ∧ c = (ch.length : ℤ))
    ?_ f 0 0 [] cs ⟨rfl, rfl⟩ h
  · obtain ⟨s', c', ⟨hids, _⟩, _⟩ := hinv
    exact hids
  · intro s c ch hP _
    obtain ⟨hids, hc⟩ := hP
    by_cases hct : winCt cfg text s = []
    · exact ⟨by rw [stepCh, if_pos hct]; exact hids,
        by rw [stepC, if_pos hct, stepCh, if_pos hct]; exact hc⟩
    · constructor
      · rw [stepCh, if_neg hct, idsOf_append, hids]
        have hrec : idsOf [dictUpdate (baseChunk (winCt cfg text s) c s
            (chooseEnd text s (s + cfg.chunk_size))) meta] = [(ch.length : ℤ)] := by
          simp [idsOf, emitted_chunk_id hm, hc]
        rw [hrec]
        have hlen : (ch ++ [dictUpdate (baseChunk (winCt cfg text s) c s
            (chooseEnd text s (s + cfg.chunk_size))) meta]).length = ch.length + 1 := by
          simp
        rw [hlen, intRange_succ]
        simp
      · rw [stepC, if_neg hct, stepCh, if_neg hct, hc]
        simp

/-- Ids of the records returned by `chunk_text` are `0, 1, 2, ...`. -/
theorem chunk_text_ids {cfg : Cfg} {meta : Dict} {raw : PyStr} {fuel : ℕ}
    {cs : List Dict} (hm : meta "chunk_id" = Option.none)
    (h : chunk_text cfg meta raw fuel = some cs) :
    idsOf cs = intRange 0 cs.length := by
  rw [chunk_text] at h
  split at h
  · injection h with h2
    rw [← h2]
    rfl
  · exact chunkLoop_ids hm fuel cs h

theorem assignIds_ids : ∀ (ds : List Dict) (cid : ℤ),
    idsOf (assignIds ds cid) = intRange cid ds.length
  | [], _ => rfl
  | d :: ds, cid => by
    have ih := assignIds_ids ds (cid + 1)
    simp only [idsOf] at ih ⊢
    simp only [assignIds, List.map_cons, List.length_cons]
    rw [intRange_cons, ih]
    rfl

theorem assignIds_length : ∀ (ds : List Dict) (cid : ℤ),
    (assignIds ds cid).length = ds.length
  | [], _ => rfl
  | d :: ds, cid => by simp [assignIds, assignIds_length ds (cid + 1)]

/-- The id field of a whole-paragraph record. -/
theorem small_chunk_id {meta : Dict} (hm : meta "chunk_id" = Option.none)
    (t : PyStr) (cid : ℤ) :
    pyGetInt (dictUpdate (smallChunk t cid) meta) "chunk_id" = cid := by
  apply pyGetInt_eq
  rw [dictUpdate_none hm]
  rfl

/-- Ids of the records accumulated by the paragraph loop are `0, 1, 2, ...`. -/
theorem paraLoop_ids {cfg : Cfg} {meta : Dict} {fuel : ℕ}
    (hm : meta "chunk_id" = Option.none) :
    ∀ (ps : List PyStr) (cid : ℤ) (acc cs : List Dict),
      idsOf acc = intRange 0 acc.length → cid = (acc.length : ℤ) →
      paraLoop cfg meta fuel ps cid acc = some cs →
      idsOf cs = intRange 0 cs.length
  | [], cid, acc, cs, hids, hcid, h => by
    have h2 : some acc = some cs := h
    injection h2 with h3
    rw [← h3]
    exact hids
  | p :: ps, cid, acc, cs, hids, hcid, h => by
    simp only [paraLoop] at h
    split at h
    · exact paraLoop_ids hm ps cid acc cs hids hcid h
    · split at h
      · refine paraLoop_ids hm ps (cid + 1) _ cs ?_ ?_ h
        · rw [idsOf_append, hids]
          have hone : idsOf [dictUpdate (smallChunk (pyStrip p) cid) meta]
              = [(acc.length : ℤ)] := by
            simp [idsOf, small_chunk_id hm, hcid]
          rw [hone]
          have hlen : (acc ++ [dictUpdate (smallChunk (pyStrip p) cid) meta]).length
              = acc.length + 1 := by simp
          rw [hlen, intRange_succ]
          simp
        · rw [hcid]
          simp
      · cases hsub : chunk_text cfg meta (pyStrip p) fuel with
        | none => rw [hsub] at h; exact absurd h (by simp)
        | some subs =>
          rw [hsub] at h
          refine paraLoop_ids hm ps _ _ cs ?_ ?_ h
          · rw [idsOf_append, hids, assignIds_ids, hcid]
            have hlen : (acc ++ assignIds subs ((acc.length : ℤ))).length
                = acc.length + subs.length := by
              simp [assignIds_length]
            rw [hlen, intRange_append]
            simp
          · rw [hcid]
            have hlen : (acc ++ assignIds subs ((acc.length : ℤ))).length
                = acc.length + subs.length := by
              simp [assignIds_length]
            rw [hlen]
            push_cast
            ring

/-- C7 amended: provided the caller metadata does not contain the key
`chunk_id`, the chunk ids of `chunk_text` and of `chunk_by_paragraphs` are
exactly `0, 1, 2, ...` in output order, contiguous with no gaps or
duplicates, even when empty trimmed windows are dropped and when oversized
paragraphs are recursively split. -/
theorem C7_amended :
    (∀ (cfg : Cfg) (meta : Dict) (raw : PyStr) (fuel : ℕ) (cs : List Dict),
      meta "chunk_id" = Option.none →
      chunk_text cfg meta raw fuel = some cs →
      idsOf cs = intRange 0 cs.length)
    ∧ (∀ (cfg : Cfg) (meta : Dict) (text : PyStr) (fuel : ℕ) (cs : List Dict),
        meta "chunk_id" = Option.none →
        chunk_by_paragraphs cfg meta text fuel = some cs →
        idsOf cs = intRange 0 cs.length) := by
  constructor
  · intro cfg meta raw fuel cs hm h
    exact chunk_text_ids hm h
  · intro cfg meta text fuel cs hm h
    exact paraLoop_ids hm (splitNNAux text []) 0 [] cs rfl rfl h

/-- Witness for C7: both parts at concrete inputs. -/
theorem C7_w :
    idsOf [dictUpdate (baseChunk (S "hello") 0 0 1000) emptyDict] = intRange 0 1
    ∧ idsOf [dictUpdate (smallChunk (S "hi") 0) emptyDict] = intRange 0 1 := by
  constructor
  · exact C7_amended.1 cfgDefault emptyDict (S "hello") 5
      [dictUpdate (baseChunk (S "hello") 0 0 1000) emptyDict] rfl rfl
  · exact C7_amended.2 cfgDefault emptyDict (S "hi") 5
      [dictUpdate (smallChunk (S "hi") 0) emptyDict] rfl rfl

/-! # Amended claims: metadata precedence (C8) -/

/-- Every record the window loop accumulates carries the metadata's value at
any key the metadata defines. -/
theorem chunkLoop_meta_key {cfg : Cfg} {meta : Dict} {text : PyStr}
    {k : String} {v : Val} (hm : meta k = some v) (f : ℕ) (cs : List Dict)
    (h : chunkLoop cfg meta text f 0 0 [] = some cs) :
    ∀ d ∈ cs, d k = some v := by
  have hinv := chunkLoop_invariant cfg meta text
    (fun _ _ ch => ∀ d ∈ ch, d k = some v) ?_ f 0 0 [] cs (by simp) h
  · obtain ⟨s', c', hP, _⟩ := hinv
    exact hP
  · intro s c ch hP _ d hd
    rw [stepCh] at hd
    split at hd
    · exact hP d hd
    · rcases List.mem_append.mp hd with h1 | h1
      · exact hP d h1
      · rw [List.mem_singleton] at h1
        subst h1
        exact dictUpdate_some hm

/-- Caller metadata wins in every `chunk_text` record. -/
theorem chunk_text_meta_key {cfg : Cfg} {meta : Dict} {raw : PyStr} {fuel : ℕ}
    {cs : List Dict} {k : String} {v : Val} (hm : meta k = some v)
    (h : chunk_text cfg meta raw fuel = some cs) :
    ∀ d ∈ cs, d k = some v := by
  rw [chunk_text] at h
  split at h
  · injection h with h2
    rw [← h2]
    intro d hd
    exact absurd hd (List.not_mem_nil d)
  · exact chunkLoop_meta_key hm fuel cs h

/-- Members of `assignIds` are id-overwritten members of the input. -/
theorem mem_assignIds : ∀ {ds : List Dict} {cid : ℤ} {d : Dict},
    d ∈ assignIds ds cid → ∃ d0 ∈ ds, ∃ j : ℤ, d = dictSet d0 "chunk_id" (Val.int j)
  | [], _, _, h => absurd h (List.not_mem_nil _)
  | d0 :: ds, cid, d, h => by
    rcases List.mem_cons.mp h with rfl | h2
    · exact ⟨d0, List.mem_cons_self _ _, cid, rfl⟩
    · obtain ⟨d1, hd1, j, hj⟩ := mem_assignIds h2
      exact ⟨d1, List.mem_cons_of_mem _ hd1, j, hj⟩

/-- Single-key assignment leaves other keys unchanged. -/
theorem dictSet_ne {d : Dict} {key q : String} {v : Val} (h : q ≠ key) :
    dictSet d key v q = d q := by
  show (if q = key then some v else d q) = d q
  exact if_neg h

/-- Caller metadata wins in every paragraph-loop record, except at
`chunk_id` for sub-chunks (which the loop overwrites afterwards). -/
theorem paraLoop_meta_key {cfg : Cfg} {meta : Dict} {fuel : ℕ}
    {k : String} {v : Val} (hm : meta k = some v) (hk : k ≠ "chunk_id") :
    ∀ (ps : List PyStr) (cid : ℤ) (acc cs : List Dict),
      (∀ d ∈ acc, d k = some v) →
      paraLoop cfg meta fuel ps cid acc = some cs →
      ∀ d ∈ cs, d k = some v
  | [], cid, acc, cs, hacc, h => by
    have h2 : some acc = some cs := h
    injection h2 with h3
    rw [← h3]
    exact hacc
  | p :: ps, cid, acc, cs, hacc, h => by
    simp only [paraLoop] at h
    split at h
    · exact paraLoop_meta_key hm hk ps cid acc cs hacc h
    · split at h
      · refine paraLoop_meta_key hm hk ps (cid + 1) _ cs ?_ h
        intro d hd
        rcases List.mem_append.mp hd with h1 | h1
        · exact hacc d h1
        · rw [List.mem_singleton] at h1
          subst h1
          exact dictUpdate_some hm
      · cases hsub : chunk_text cfg meta (pyStrip p) fuel with
        | none => rw [hsub] at h; exact absurd h (by simp)
        | some subs =>
          rw [hsub] at h
          refine paraLoop_meta_key hm hk ps _ _ cs ?_ h
          intro d hd
          rcases List.mem_append.mp hd with h1 | h1
          · exact hacc d h1
          · obtain ⟨d0, hd0, j, rfl⟩ := mem_assignIds h1
            rw [dictSet_ne hk]
            exact chunk_text_meta_key hm hsub d0 hd0

/-- Shape of every paragraph-loop record: either a whole-paragraph record
(lines 144–150), literally the metadata-updated small-chunk dict, on which
every caller key — `chunk_id` included — takes precedence; or an
id-overwritten sub-chunk of an oversized paragraph (lines 154–158), which
keeps the caller's value at every key other than `chunk_id`. -/
theorem paraLoop_records {cfg : Cfg} {meta : Dict} {fuel : ℕ} :
    ∀ (ps : List PyStr) (cid : ℤ) (acc cs : List Dict),
      (∀ d ∈ acc,
        (∃ (t : PyStr) (c : ℤ), d = dictUpdate (smallChunk t c) meta
          ∧ ∀ (k : String) (v : Val), meta k = some v → d k = some v)
        ∨ (∃ (d0 : Dict) (j : ℤ), d = dictSet d0 "chunk_id" (Val.int j)
          ∧ ∀ (k : String) (v : Val), meta k = some v → k ≠ "chunk_id" →
              d k = some v)) →
      paraLoop cfg meta fuel ps cid acc = some cs →
      ∀ d ∈ cs,
        (∃ (t : PyStr) (c : ℤ), d = dictUpdate (smallChunk t c) meta
          ∧ ∀ (k : String) (v : Val), meta k = some v → d k = some v)
        ∨ (∃ (d0 : Dict) (j : ℤ), d = dictSet d0 "chunk_id" (Val.int j)
          ∧ ∀ (k : String) (v : Val), meta k = some v → k ≠ "chunk_id" →
              d k = some v)
  | [], cid, acc, cs, hacc, h => by
    have h2 : some acc = some cs := h
    injection h2 with h3
    rw [← h3]
    exact hacc
  | p :: ps, cid, acc, cs, hacc, h => by
    simp only [paraLoop] at h
    split at h
    · exact paraLoop_records ps cid acc cs hacc h
    · split at h
      · refine paraLoop_records ps (cid + 1) _ cs ?_ h
        intro d hd
        rcases List.mem_append.mp hd with h1 | h1
        · exact hacc d h1
        · rw [List.mem_singleton] at h1
          subst h1
          left
          exact ⟨pyStrip p, cid, rfl, fun k v hm => dictUpdate_some hm⟩
      · cases hsub : chunk_text cfg meta (pyStrip p) fuel with
        | none => rw [hsub] at h; exact absurd h (by simp)
        | some subs =>
          rw [hsub] at h
          refine paraLoop_records ps _ _ cs ?_ h
          intro d hd
          rcases List.mem_append.mp hd with h1 | h1
          · exact hacc d h1
          · obtain ⟨d0, hd0, j, rfl⟩ := mem_assignIds h1
            right
            refine ⟨d0, j, rfl, fun k v hm hk => ?_⟩
            rw [dictSet_ne hk]
            exact chunk_text_meta_key hm hsub d0 hd0

/-- C8 amended: every caller-supplied metadata key takes precedence over
chunker-internal fields in `chunk_text` records; and every record emitted by
`chunk_by_paragraphs` is either a whole-paragraph record, on which every
caller key — `chunk_id` included — takes precedence, or a sub-chunk of an
oversized paragraph, which keeps the caller's value at every key except
`chunk_id`, overwritten with the paragraph loop's own sequential id after
the metadata update. -/
theorem C8_amended :
    (∀ (cfg : Cfg) (meta : Dict) (k : String) (v : Val) (raw : PyStr) (fuel : ℕ)
        (cs : List Dict), meta k = some v →
      chunk_text cfg meta raw fuel = some cs → ∀ d ∈ cs, d k = some v)
    ∧ (∀ (cfg : Cfg) (meta : Dict) (text : PyStr) (fuel : ℕ) (cs : List Dict),
      chunk_by_paragraphs cfg meta text fuel = some cs →
      ∀ d ∈ cs,
        (∃ (t : PyStr) (c : ℤ), d = dictUpdate (smallChunk t c) meta
          ∧ ∀ (k : String) (v : Val), meta k = some v → d k = some v)
        ∨ (∃ (d0 : Dict) (j : ℤ), d = dictSet d0 "chunk_id" (Val.int j)
          ∧ ∀ (k : String) (v : Val), meta k = some v → k ≠ "chunk_id" →
              d k = some v)) := by
  constructor
  · intro cfg meta k v raw fuel cs hm h
    exact chunk_text_meta_key hm h
  · intro cfg meta text fuel cs h
    refine paraLoop_records (splitNNAux text []) 0 [] cs ?_ h
    intro d hd
    exact absurd hd (List.not_mem_nil d)

/-- Witness for C8: caller `chunk_id` wins in a `chunk_text` record; caller
`chunk_id` also wins on the whole-paragraph record `chunk_by_paragraphs`
produces for the small paragraph `"hi"`; and a caller `filename` survives on
that whole-paragraph record. -/
theorem C8_w :
    (dictUpdate (baseChunk (S "hello") 0 0 1000) metaId99) "chunk_id"
        = some (Val.int 99)
    ∧ (dictUpdate (smallChunk (S "hi") 0) metaId99) "chunk_id"
        = some (Val.int 99)
    ∧ (dictUpdate (smallChunk (S "hi") 0) metaSrc) "filename"
        = some (Val.str (S "a.txt")) := by
  refine ⟨?_, ?_, ?_⟩
  · exact C8_amended.1 cfgDefault metaId99 "chunk_id" (Val.int 99) (S "hello") 5
      [dictUpdate (baseChunk (S "hello") 0 0 1000) metaId99] rfl rfl _
      (List.mem_singleton.mpr rfl)
  · rcases C8_amended.2 cfgDefault metaId99 (S "hi") 5
        [dictUpdate (smallChunk (S "hi") 0) metaId99] rfl _
        (List.mem_singleton.mpr rfl) with ⟨t, c, heq, hprec⟩ | ⟨d0, j, heq, hprec⟩
    · exact hprec "chunk_id" (Val.int 99) rfl
    · have h2 : some (Val.int 99) = some (Val.int j) := congrFun heq "chunk_id"
      injection h2 with h3
      injection h3 with h4
      rw [h4]
      exact congrFun heq "chunk_id"
  · rcases C8_amended.2 cfgDefault metaSrc (S "hi") 5
        [dictUpdate (smallChunk (S "hi") 0) metaSrc] rfl _
        (List.mem_singleton.mpr rfl) with ⟨t, c, heq, hprec⟩ | ⟨d0, j, heq, hprec⟩
    · exact hprec "filename" (Val.str (S "a.txt")) rfl
    · exact hprec "filename" (Val.str (S "a.txt")) rfl (by decide)

/-! # Window-end bounds and slice lemmas (C2, C5) -/

theorem scanBack_lt {P : ℕ → Bool} : ∀ {n k : ℕ},
    scanBack P n = some k → k < n ∧ P k = true
  | 0, k, h => by simp [scanBack] at h
  | n + 1, k, h => by
    rw [scanBack] at h
    split at h
    · rename_i hp
      injection h with h2
      subst h2
      exact ⟨Nat.lt_succ_self n, hp⟩
    · obtain ⟨h1, h2⟩ := scanBack_lt h
      exact ⟨Nat.lt_succ_of_lt h1, h2⟩

theorem scanBack_congr {P Q : ℕ → Bool} : ∀ n, (∀ k, k < n → P k = Q k) →
    scanBack P n = scanBack Q n
  | 0, _ => rfl
  | n + 1, h => by
    rw [scanBack, scanBack, h n (Nat.lt_succ_self n)]
    split
    · rfl
    · exact scanBack_congr n (fun k hk => h k (Nat.lt_succ_of_lt hk))

theorem pySlice_length {l : PyStr} {a b : ℤ} (ha : 0 ≤ a) (hb : 0 ≤ b) :
    (pySlice l a b).length = min b.toNat l.length - min a.toNat l.length := by
  rw [pySlice, clampIdx, clampIdx, if_neg (by omega), if_neg (by omega)]
  rw [List.length_drop, List.length_take]
  have h1 : min (min b.toNat l.length) l.length = min b.toNat l.length :=
    Nat.min_eq_left (Nat.min_le_right _ _)
  rw [h1]

theorem pySlice_length_le {l : PyStr} {a b : ℤ} (ha : 0 ≤ a) (hb : 0 ≤ b) :
    (pySlice l a b).length ≤ b.toNat - a.toNat := by
  rw [pySlice_length ha hb]
  rcases Nat.le_total a.toNat l.length with h | h
  · rw [Nat.min_eq_left h]
    have h1 := Nat.min_le_left b.toNat l.length
    omega
  · rw [Nat.min_eq_right h]
    have h1 := Nat.min_le_right b.toNat l.length
    omega

/-- The sentence scan never returns a position beyond the candidate end. -/
theorem find_sentence_le {text : PyStr} {s e0 : ℤ} (hs : 0 ≤ s) (hse : s ≤ e0) :
    find_sentence_boundary text s e0 ≤ e0 := by
  have hss0 : 0 ≤ max s (e0 - 200) := le_trans hs (le_max_left _ _)
  have hsse : max s (e0 - 200) ≤ e0 := max_le hse (by omega)
  simp only [find_sentence_boundary]
  split
  · rename_i i heq
    obtain ⟨hi, _⟩ := scanBack_lt heq
    have hle := @pySlice_length_le text (max s (e0 - 200)) e0 hss0 (by omega)
    omega
  · omega

/-- The word scan never returns a position beyond the candidate end. -/
theorem find_word_le {text : PyStr} {s e0 : ℤ} (he : -1 ≤ e0) :
    find_word_boundary text s e0 ≤ e0 := by
  simp only [find_word_boundary]
  split
  · rename_i k heq
    obtain ⟨hk, _⟩ := scanBack_lt heq
    omega
  · omega

/-- The chosen window end always advances past the window start. -/
theorem chooseEnd_gt (text : PyStr) (s e0 : ℤ) (h : s < e0) :
    s < chooseEnd text s e0 := by
  rw [chooseEnd]
  split
  · show s < (if s < find_sentence_boundary text s e0 then find_sentence_boundary text s e0
      else if s < find_word_boundary text s e0 then find_word_boundary text s e0 else e0)
    split
    · rename_i h2; exact h2
    · split
      · rename_i h3; exact h3
      · exact h
  · exact h

/-- For a window strictly inside the text the chosen end stays at or before
the candidate end. -/
theorem chooseEnd_le {text : PyStr} {s e0 : ℤ} (hs : 0 ≤ s) (h : s < e0)
    (hlt : e0 < (text.length : ℤ)) : chooseEnd text s e0 ≤ e0 := by
  rw [chooseEnd, if_pos hlt]
  show (if s < find_sentence_boundary text s e0 then find_sentence_boundary text s e0
    else if s < find_word_boundary text s e0 then find_word_boundary text s e0 else e0) ≤ e0
  split
  · exact find_sentence_le hs (by omega)
  · split
    · exact find_word_le (by omega)
    · omega

/-- The chosen end is inside the text, unless it is the raw candidate end. -/
theorem chooseEnd_cases {text : PyStr} {s e0 : ℤ} (hs : 0 ≤ s) (h : s < e0) :
    chooseEnd text s e0 ≤ (text.length : ℤ) ∨ chooseEnd text s e0 = e0 := by
  by_cases hlt : e0 < (text.length : ℤ)
  · exact Or.inl (le_trans (chooseEnd_le hs h hlt) (by omega))
  · right
    rw [chooseEnd, if_neg hlt]

/-! # Strip lemmas -/

/-- A non-matching member survives `dropWhile`. -/
theorem mem_dropWhile {p : Char → Bool} : ∀ {l : PyStr} {x : Char},
    x ∈ l → p x = false → x ∈ l.dropWhile p
  | [], x, hx, _ => absurd hx (List.not_mem_nil x)
  | a :: l, x, hx, hp => by
    rw [List.dropWhile_cons]
    split
    · rename_i hpa
      rcases List.mem_cons.mp hx with rfl | h2
      · rw [hp] at hpa; exact absurd hpa (by simp)
      · exact mem_dropWhile h2 hp
    · exact hx

/-- A non-whitespace member survives `strip`. -/
theorem pyStrip_mem {l : PyStr} {x : Char} (hx : x ∈ l) (hp : pyIsSpace x = false) :
    x ∈ pyStrip l := by
  rw [pyStrip]
  apply List.mem_reverse.mpr
  apply mem_dropWhile _ hp
  apply List.mem_reverse.mpr
  exact mem_dropWhile hx hp

/-- A string with a non-whitespace character has a non-empty strip. -/
theorem pyStrip_ne_nil {l : PyStr} {x : Char} (hx : x ∈ l) (hp : pyIsSpace x = false) :
    pyStrip l ≠ [] :=
  List.ne_nil_of_mem (pyStrip_mem hx hp)

/-- The first character of a stripped string is not whitespace. -/
theorem pyStrip_head {l : PyStr} {x : Char} (h : (pyStrip l).head? = some x) :
    pyIsSpace x = false := by
  have hsplit := List.takeWhile_append_dropWhile pyIsSpace (l.dropWhile pyIsSpace).reverse
  have hm : l.dropWhile pyIsSpace
      = ((l.dropWhile pyIsSpace).reverse.dropWhile pyIsSpace).reverse
        ++ ((l.dropWhile pyIsSpace).reverse.takeWhile pyIsSpace).reverse := by
    conv_lhs => rw [← List.reverse_reverse (l.dropWhile pyIsSpace), ← hsplit]
    rw [List.reverse_append]
  have hhead : (l.dropWhile pyIsSpace).head? = some x := by
    rw [hm, List.head?_append]
    rw [pyStrip] at h
    rw [h]
    rfl
  have hnot := List.head?_dropWhile_not pyIsSpace l
  rw [hhead] at hnot
  exact hnot

/-- The first character of a cleaned text is not whitespace. -/
theorem cleanText_head {l : PyStr} {x : Char} (h : (cleanText l).head? = some x) :
    pyIsSpace x = false := by
  simp only [cleanText] at h
  exact pyStrip_head h

/-! # Amended claims: chunk positions (C2) -/

/-- The `start_pos` of an emitted record, when metadata does not override it. -/
theorem emitted_start {meta : Dict} (hm : meta "start_pos" = Option.none)
    (t : PyStr) (cid s e : ℤ) :
    pyGetInt (dictUpdate (baseChunk t cid s e) meta) "start_pos" = s := by
  apply pyGetInt_eq
  rw [dictUpdate_none hm]
  rfl

/-- The `end_pos` of an emitted record, when metadata does not override it. -/
theorem emitted_end {meta : Dict} (hm : meta "end_pos" = Option.none)
    (t : PyStr) (cid s e : ℤ) :
    pyGetInt (dictUpdate (baseChunk t cid s e) meta) "end_pos" = e := by
  apply pyGetInt_eq
  rw [dictUpdate_none hm]
  rfl

/-- The very first window of a cleaned, non-empty text never strips to
empty: it contains the first character, which is not whitespace. -/
theorem winCt_zero_ne {cfg : Cfg} {text : PyStr} (hcs : 1 ≤ cfg.chunk_size)
    (hlen : 0 < text.length)
    (hhead : ∀ y, text.head? = some y → pyIsSpace y = false) :
    winCt cfg text 0 ≠ [] := by
  obtain ⟨x, xs, rfl⟩ : ∃ x xs, text = x :: xs := by
    cases text with
    | nil => simp at hlen
    | cons x xs => exact ⟨x, xs, rfl⟩
  have hx : pyIsSpace x = false := hhead x rfl
  rw [winCt]
  apply pyStrip_ne_nil _ hx
  have he : (0:ℤ) < chooseEnd (x :: xs) 0 (0 + cfg.chunk_size) :=
    chooseEnd_gt _ _ _ (by omega)
  rw [pySlice]
  have ha : clampIdx (x :: xs).length 0 = 0 := by
    rw [clampIdx, if_neg (by omega)]
    simp
  have hb : ∃ m, clampIdx (x :: xs).length (chooseEnd (x :: xs) 0 (0 + cfg.chunk_size))
      = m + 1 := by
    rw [clampIdx, if_neg (by omega)]
    have h1 : 1 ≤ (chooseEnd (x :: xs) 0 (0 + cfg.chunk_size)).toNat := by omega
    have h2 : 1 ≤ (x :: xs).length := by simp
    have h3 := Nat.le_min.mpr ⟨h1, h2⟩
    exact ⟨min (chooseEnd (x :: xs) 0 (0 + cfg.chunk_size)).toNat (x :: xs).length - 1,
      by omega⟩
  obtain ⟨m, hm2⟩ := hb
  rw [ha, hm2, List.drop_zero, List.take_succ_cons]
  exact List.mem_cons_self _ _

/-- Every record produced by the window loop (started at 0 on a cleaned
text) has well-formed positions. -/
theorem chunkLoop_ok {cfg : Cfg} {meta : Dict} {text : PyStr}
    (hcs : 1 ≤ cfg.chunk_size)
    (hm1 : meta "start_pos" = Option.none) (hm2 : meta "end_pos" = Option.none)
    (hhead : ∀ y, text.head? = some y → pyIsSpace y = false)
    (f : ℕ) (cs : List Dict)
    (h : chunkLoop cfg meta text f 0 0 [] = some cs) :
    ∀ d ∈ cs, chunkOk (text.length : ℤ) cfg.chunk_size d := by
  have hinv := chunkLoop_invariant cfg meta text
    (fun s _ ch => 0 ≤ s ∧ (ch = [] → s = 0)
      ∧ ∀ d ∈ ch, chunkOk (text.length : ℤ) cfg.chunk_size d)
    ?_ f 0 0 [] cs ⟨le_refl 0, fun _ => rfl, by simp⟩ h
  · obtain ⟨s', c', ⟨_, _, hok⟩, _⟩ := hinv
    exact hok
  · intro s c ch hP hlt
    obtain ⟨hs0, hemp, hok⟩ := hP
    have hgt : s < chooseEnd text s (s + cfg.chunk_size) :=
      chooseEnd_gt text s _ (by omega)
    have hcase : chooseEnd text s (s + cfg.chunk_size) ≤ (text.length : ℤ)
        ∨ chooseEnd text s (s + cfg.chunk_size) = s + cfg.chunk_size :=
      chooseEnd_cases hs0 (by omega)
    have hok' : ∀ d ∈ stepCh cfg meta text s c ch,
        chunkOk (text.length : ℤ) cfg.chunk_size d := by
      intro d hd
      rw [stepCh] at hd
      split at hd
      · exact hok d hd
      · rcases List.mem_append.mp hd with h1 | h1
        · exact hok d h1
        · rw [List.mem_singleton] at h1
          subst h1
          refine ⟨?_, ?_, ?_⟩
          · rw [emitted_start hm1]; exact hs0
          · rw [emitted_start hm1, emitted_end hm2]; exact hgt
          · rw [emitted_start hm1, emitted_end hm2]
            rcases hcase with h2 | h2
            · exact Or.inl h2
            · exact Or.inr h2
    have hne : stepCh cfg meta text s c ch ≠ [] := by
      rw [stepCh]
      split
      · rename_i hct
        intro hchnil
        have hs' : s = 0 := hemp hchnil
        rw [hs'] at hct
        exact winCt_zero_ne hcs (by omega) hhead hct
      · simp
    refine ⟨?_, ?_, hok'⟩
    · rw [stepS]
      split
      · rename_i d hl
        split
        · omega
        · rename_i hcond
          have hd := List.mem_of_getLast?_eq_some hl
          have h1 := (hok' d hd).1
          omega
      · rename_i hl
        exact absurd (List.getLast?_eq_none_iff.mp hl) hne
    · intro hnil
      exact absurd hnil hne

/-- Every `chunk_text` record has well-formed positions relative to the
cleaned text and the chunk size. -/
theorem chunk_text_ok {cfg : Cfg} {meta : Dict} {raw : PyStr} {fuel : ℕ}
    {cs : List Dict} (hcs : 1 ≤ cfg.chunk_size)
    (hm1 : meta "start_pos" = Option.none) (hm2 : meta "end_pos" = Option.none)
    (h : chunk_text cfg meta raw fuel = some cs) :
    ∀ d ∈ cs, chunkOk ((cleanText raw).length : ℤ) cfg.chunk_size d := by
  rw [chunk_text] at h
  split at h
  · injection h with h2
    rw [← h2]
    intro d hd
    exact absurd hd (List.not_mem_nil d)
  · exact chunkLoop_ok hcs hm1 hm2 (fun y hy => cleanText_head hy) fuel cs h

/-- Paragraph-loop records: whole paragraphs carry no position fields, and
sub-chunk positions are ordered. -/
theorem paraLoop_pos {cfg : Cfg} {meta : Dict} {fuel : ℕ}
    (hcs : 1 ≤ cfg.chunk_size)
    (hm1 : meta "start_pos" = Option.none) (hm2 : meta "end_pos" = Option.none) :
    ∀ (ps : List PyStr) (cid : ℤ) (acc cs : List Dict),
      (∀ d ∈ acc, (d "start_pos" = Option.none ∧ d "end_pos" = Option.none)
        ∨ (0 ≤ pyGetInt d "start_pos" ∧ pyGetInt d "start_pos" < pyGetInt d "end_pos")) →
      paraLoop cfg meta fuel ps cid acc = some cs →
      ∀ d ∈ cs, (d "start_pos" = Option.none ∧ d "end_pos" = Option.none)
        ∨ (0 ≤ pyGetInt d "start_pos" ∧ pyGetInt d "start_pos" < pyGetInt d "end_pos")
  | [], cid, acc, cs, hacc, h => by
    have h2 : some acc = some cs := h
    injection h2 with h3
    rw [← h3]
    exact hacc
  | p :: ps, cid, acc, cs, hacc, h => by
    simp only [paraLoop] at h
    split at h
    · exact paraLoop_pos hcs hm1 hm2 ps cid acc cs hacc h
    · split at h
      · refine paraLoop_pos hcs hm1 hm2 ps (cid + 1) _ cs ?_ h
        intro d hd
        rcases List.mem_append.mp hd with h1 | h1
        · exact hacc d h1
        · rw [List.mem_singleton] at h1
          subst h1
          left
          constructor
          · rw [dictUpdate_none hm1]; rfl
          · rw [dictUpdate_none hm2]; rfl
      · cases hsub : chunk_text cfg meta (pyStrip p) fuel with
        | none => rw [hsub] at h; exact absurd h (by simp)
        | some subs =>
          rw [hsub] at h
          refine paraLoop_pos hcs hm1 hm2 ps _ _ cs ?_ h
          intro d hd
          rcases List.mem_append.mp hd with h1 | h1
          · exact hacc d h1
          · obtain ⟨d0, hd0, j, rfl⟩ := mem_assignIds h1
            right
            have hok := chunk_text_ok hcs hm1 hm2 hsub d0 hd0
            have hst : (dictSet d0 "chunk_id" (Val.int j)) "start_pos" = d0 "start_pos" :=
              dictSet_ne (by decide)
            have hen : (dictSet d0 "chunk_id" (Val.int j)) "end_pos" = d0 "end_pos" :=
              dictSet_ne (by decide)
            rw [pyGetInt_congr hst, pyGetInt_congr hen]
            exact ⟨hok.1, hok.2.1⟩

/-- C2 amended: for `chunk_size ≥ 1` and metadata not overriding the
position fields, every `chunk_text` record satisfies
`0 ≤ start_pos < end_pos`, and `end_pos` is within the cleaned text unless
it is the unadjusted `start_pos + chunk_size` of a final window (which may
overrun the text length); `chunk_by_paragraphs` records carry no position
fields for whole paragraphs, while its sub-chunk records (positions
relative to the paragraph) satisfy `0 ≤ start_pos < end_pos`. -/
theorem C2_amended :
    (∀ (cfg : Cfg) (meta : Dict) (raw : PyStr) (fuel : ℕ) (cs : List Dict),
      1 ≤ cfg.chunk_size →
      meta "start_pos" = Option.none → meta "end_pos" = Option.none →
      chunk_text cfg meta raw fuel = some cs →
      ∀ d ∈ cs, 0 ≤ pyGetInt d "start_pos"
        ∧ pyGetInt d "start_pos" < pyGetInt d "end_pos"
        ∧ (pyGetInt d "end_pos" ≤ ((cleanText raw).length : ℤ)
            ∨ pyGetInt d "end_pos" = pyGetInt d "start_pos" + cfg.chunk_size))
    ∧ (∀ (cfg : Cfg) (meta : Dict) (text : PyStr) (fuel : ℕ) (cs : List Dict),
        1 ≤ cfg.chunk_size →
        meta "start_pos" = Option.none → meta "end_pos" = Option.none →
        chunk_by_paragraphs cfg meta text fuel = some cs →
        ∀ d ∈ cs, (d "start_pos" = Option.none ∧ d "end_pos" = Option.none)
          ∨ (0 ≤ pyGetInt d "start_pos" ∧ pyGetInt d "start_pos" < pyGetInt d "end_pos")) := by
  constructor
  · intro cfg meta raw fuel cs hcs hm1 hm2 h
    exact chunk_text_ok hcs hm1 hm2 h
  · intro cfg meta text fuel cs hcs hm1 hm2 h
    refine paraLoop_pos hcs hm1 hm2 (splitNNAux text []) 0 [] cs ?_ h
    intro d hd
    exact absurd hd (List.not_mem_nil d)

/-- Witness for C2: the single chunk of `"hello"` under the default
configuration. -/
theorem C2_w :
    0 ≤ pyGetInt (dictUpdate (baseChunk (S "hello") 0 0 1000) emptyDict) "start_pos"
    ∧ pyGetInt (dictUpdate (baseChunk (S "hello") 0 0 1000) emptyDict) "start_pos"
        < pyGetInt (dictUpdate (baseChunk (S "hello") 0 0 1000) emptyDict) "end_pos"
    ∧ (pyGetInt (dictUpdate (baseChunk (S "hello") 0 0 1000) emptyDict) "end_pos"
          ≤ ((cleanText (S "hello")).length : ℤ)
        ∨ pyGetInt (dictUpdate (baseChunk (S "hello") 0 0 1000) emptyDict) "end_pos"
          = pyGetInt (dictUpdate (baseChunk (S "hello") 0 0 1000) emptyDict) "start_pos"
            + cfgDefault.chunk_size) :=
  C2_amended.1 cfgDefault emptyDict (S "hello") 5
    [dictUpdate (baseChunk (S "hello") 0 0 1000) emptyDict] (by decide) rfl rfl rfl
    (dictUpdate (baseChunk (S "hello") 0 0 1000) emptyDict)
    (List.mem_singleton.mpr rfl)

/-! # Amended claim: the window-end rule (C5) -/

theorem pySlice_length_eq {l : PyStr} {a b : ℤ} (ha : 0 ≤ a) (hab : a ≤ b)
    (hb : b ≤ (l.length : ℤ)) : (pySlice l a b).length = (b - a).toNat := by
  rw [pySlice_length ha (by omega)]
  have hbn : b.toNat ≤ l.length := by omega
  have han : a.toNat ≤ l.length := by omega
  rw [Nat.min_eq_left hbn, Nat.min_eq_left han]
  omega

theorem pySlice_getD {l : PyStr} {a b : ℤ} (ha : 0 ≤ a) (hab : a ≤ b)
    (hb : b ≤ (l.length : ℤ)) {i : ℕ} (hi : i < (b - a).toNat) (c : Char) :
    (pySlice l a b).getD i c = l.getD (a.toNat + i) c := by
  have hbn : b.toNat ≤ l.length := by omega
  have han : a.toNat ≤ l.length := by omega
  rw [pySlice, clampIdx, clampIdx, if_neg (by omega), if_neg (by omega),
    Nat.min_eq_left hbn, Nat.min_eq_left han]
  rw [List.getD_eq_getElem?_getD, List.getD_eq_getElem?_getD]
  rw [List.getElem?_drop]
  rw [List.getElem?_take_of_lt (by omega)]

/-- A successful spec-side sentence position lies past the window start. -/
theorem specSentWindow_gt {text : PyStr} {start e0 p : ℤ}
    (h : specSentWindow text start e0 = some p) : start < p := by
  simp only [specSentWindow] at h
  split at h
  · rename_i k heq
    injection h with h2
    have h3 := le_max_left start (e0 - 200)
    omega
  · exact absurd h (by simp)

/-- The code's slice-based sentence scan equals the spec-side scan with the
amended window-final condition, for windows inside the text. -/
theorem find_sentence_spec {text : PyStr} {start e0 : ℤ}
    (h0 : 0 ≤ start) (h1 : start < e0) (h2 : e0 ≤ (text.length : ℤ)) :
    find_sentence_boundary text start e0 =
      (match specSentWindow text start e0 with
       | some p => p
       | Option.none => -1) := by
  have hss0 : 0 ≤ max start (e0 - 200) := le_trans h0 (le_max_left _ _)
  have hsse : max start (e0 - 200) ≤ e0 := max_le (by omega) (by omega)
  have hlen : (pySlice text (max start (e0 - 200)) e0).length
      = (e0 - max start (e0 - 200)).toNat := pySlice_length_eq hss0 hsse h2
  have hidx : ∀ j : ℕ, j < (e0 - max start (e0 - 200)).toNat →
      (pySlice text (max start (e0 - 200)) e0).getD j (Char.ofNat 0)
        = pyIndex text (max start (e0 - 200) + (j : ℤ)) := by
    intro j hj
    rw [pySlice_getD hss0 hsse h2 hj]
    rw [pyIndex, if_pos (by omega)]
    congr 1
    omega
  have hpt : ∀ k, k < (e0 - max start (e0 - 200)).toNat →
      (isTerminal ((pySlice text (max start (e0 - 200)) e0).getD k (Char.ofNat 0))
        && (decide ((e0 - max start (e0 - 200)).toNat ≤ k + 1)
            || pyIsSpace ((pySlice text (max start (e0 - 200)) e0).getD (k + 1) (Char.ofNat 0))))
      = (isTerminal (pyIndex text (max start (e0 - 200) + (k : ℤ)))
        && (decide (max start (e0 - 200) + (k : ℤ) + 1 = e0)
            || pyIsSpace (pyIndex text (max start (e0 - 200) + (k : ℤ) + 1)))) := by
    intro k hk
    rw [hidx k hk]
    congr 1
    by_cases hlast : k + 1 = (e0 - max start (e0 - 200)).toNat
    · have hb1 : decide ((e0 - max start (e0 - 200)).toNat ≤ k + 1) = true := by
        simp only [decide_eq_true_eq]
        omega
      have hb2 : decide (max start (e0 - 200) + (k : ℤ) + 1 = e0) = true := by
        simp only [decide_eq_true_eq]
        omega
      rw [hb1, hb2, Bool.true_or, Bool.true_or]
    · have hb1 : decide ((e0 - max start (e0 - 200)).toNat ≤ k + 1) = false := by
        simp only [decide_eq_false_iff_not]
        omega
      have hb2 : decide (max start (e0 - 200) + (k : ℤ) + 1 = e0) = false := by
        simp only [decide_eq_false_iff_not]
        omega
      rw [hb1, hb2, Bool.false_or, Bool.false_or]
      rw [hidx (k + 1) (by omega)]
      have harg : max start (e0 - 200) + ((k + 1 : ℕ) : ℤ)
          = max start (e0 - 200) + (k : ℤ) + 1 := by push_cast; ring
      rw [harg]
  simp only [find_sentence_boundary, specSentWindow]
  rw [hlen]
  rw [scanBack_congr _ hpt]
  generalize scanBack
    (fun k => isTerminal (pyIndex text (max start (e0 - 200) + (k : ℤ)))
      && (decide (max start (e0 - 200) + (k : ℤ) + 1 = e0)
          || pyIsSpace (pyIndex text (max start (e0 - 200) + (k : ℤ) + 1))))
    ((e0 - max start (e0 - 200)).toNat) = res
  cases res with
  | some i => rfl
  | none => rfl

/-- The word-boundary fallback of the code equals the spec-side rule (2). -/
theorem find_word_spec (text : PyStr) (start e0 : ℤ) (h0 : -1 ≤ start) :
    (if start < find_word_boundary text start e0 then find_word_boundary text start e0
      else e0)
      = (match specWordEnd text start e0 with
         | some w => w
         | Option.none => e0) := by
  simp only [find_word_boundary, specWordEnd]
  generalize scanBack (fun k => pyIsSpace (pyIndex text (start + 1 + (k : ℤ))))
    ((e0 - 1 - start).toNat) = res
  cases res with
  | some k =>
    show (if start < start + 1 + (k : ℤ) + 1 then start + 1 + (k : ℤ) + 1 else e0)
      = start + 1 + (k : ℤ) + 1
    rw [if_pos (by omega)]
  | none =>
    show (if start < -1 then -1 else e0) = e0
    rw [if_neg (by omega)]

/-- C5 amended: for every window with `0 ≤ start` whose candidate end
`start + chunk_size` lies strictly inside the cleaned text, the window end
chosen by `chunk_text` equals the claim's priority rule, with rule (1)
amended so that the terminator is followed by whitespace *or stands at the
final position of the candidate window* (the code tests the end of its
search slice, not end-of-text). -/
theorem C5_amended (text : PyStr) (start e0 : ℤ)
    (h0 : 0 ≤ start) (h1 : start < e0) (h2 : e0 < (text.length : ℤ)) :
    chooseEnd text start e0 = specChooseEndWindow text start e0 := by
  have hsent := @find_sentence_spec text start e0 h0 h1 (le_of_lt h2)
  rw [chooseEnd, if_pos h2, specChooseEndWindow]
  show (if start < find_sentence_boundary text start e0
      then find_sentence_boundary text start e0
      else if start < find_word_boundary text start e0
        then find_word_boundary text start e0 else e0) = _
  cases hres : specSentWindow text start e0 with
  | some p =>
    rw [hres] at hsent
    have hsent2 : find_sentence_boundary text start e0 = p := hsent
    have hp : start < p := specSentWindow_gt hres
    rw [hsent2, if_pos hp]
  | none =>
    rw [hres] at hsent
    have hsent2 : find_sentence_boundary text start e0 = -1 := hsent
    rw [hsent2, if_neg (by omega)]
    exact find_word_spec text start e0 (by omega)

/-- Witness for C5: the amended rule at the counterexample's window. -/
theorem C5_w :
    chooseEnd (S "a b.cdef gh") 0 4 = specChooseEndWindow (S "a b.cdef gh") 0 4 :=
  C5_amended (S "a b.cdef gh") 0 4 (by decide) (by decide) (by decide)
